import Mathlib

/-!
Verification of winupdate.

A shallow embedding of `winupdate.go` (the self-update agent) and the proofs that settle the
properties stated about it.

Modelling conventions.

* A Go byte is a `Fin 256`; a Go string that is used as a name (a URL, a path component) is a
  list of characters, so that the slicing of the source can be followed index by index.
* A path is the list of its components below the volume root: `filepath.Dir` drops the last
  component, `filepath.Base` returns it and `filepath.Join` appends (after cleaning).
* The file system is an association list from paths to nodes, together with the paths that
  another process holds open (`locked`); an operation on a locked path fails, which is how an
  externally caused failure enters the model.
* Library code (`crypto/sha256`, `compress/bzip2`, `archive/zip`, `net/http`) is not part of the
  program: it is a parameter (`Lib`, `World.net`).
* The log file lives in the parent of the three installation directories; it is kept as the
  separate component `World.logs` (time stamps omitted).
* A Go run-time panic (a slice out of range, a nil dereference) is the outcome `Res.panic`.
-/

namespace Winupdate

/-! ## Basic data -/

abbrev Byte := Fin 256

abbrev Bytes := List Byte

abbrev Str := List Char

abbrev Path := List Str

/-- File-system operations, used to tag the error an operation returns. -/
inductive Op where
  | read
  | write
  | create
  | remove
  | removeAll
  | mkdir
  | rename
  | start
deriving DecidableEq, Repr

/-- The error values the program can return. -/
inductive Error where
  /-- The sentinel `errNoUpdateAvailable`. -/
  | noUpdateAvailable
  /-- Failure of `os.Executable`. -/
  | executable
  /-- Failure of `http.DefaultClient.Get` or of reading the response body. -/
  | http (url : Str)
  /-- The text "Server hash is %v bytes long (expected 32)". -/
  | serverHashLength (n : Nat)
  /-- The text "Hash invalid length". -/
  | hashInvalidLength
  /-- The text "Hash mismatch". -/
  | hashMismatch
  /-- Failure of the bzip2 reader. -/
  | bzip2
  /-- Failure of `zip.NewReader`, of opening an entry or of copying it out. -/
  | zip
  /-- Failure of a file-system operation. -/
  | io (op : Op) (path : Path)
deriving DecidableEq, Repr

/-- Outcome of a Go function returning `(α, error)`, or panicking. -/
inductive Res (α : Type) where
  | ok (a : α)
  | err (e : Error)
  | panic
deriving DecidableEq, Repr

deriving instance DecidableEq for Except

/-- One line handed to `log`. -/
inductive LogMsg where
  | text (s : String)
  | copy (src dst : Path)
  | delete (p : Path)
  | error (e : Error)
deriving DecidableEq, Repr

/-! ## Strings -/

/-- Auxiliary scan for `index`: `i` is the offset of the remaining text. -/
def indexFrom (sub : Str) : Str → Nat → Int
  | [], i => if sub = [] then (i : Int) else -1
  | c :: cs, i => if sub.isPrefixOf (c :: cs) then (i : Int) else indexFrom sub cs (i + 1)

/-- Go `strings.Index`: offset of the first occurrence of `sub` in `s`, or `-1`. -/
def index (s sub : Str) : Int := indexFrom sub s 0

/-- Auxiliary scan for `lastIndex`: `acc` is the last offset found so far. -/
def lastIndexFrom (sub : Str) : Str → Nat → Int → Int
  | [], i, acc => if sub = [] then (i : Int) else acc
  | c :: cs, i, acc =>
    lastIndexFrom sub cs (i + 1) (if sub.isPrefixOf (c :: cs) then (i : Int) else acc)

/-- Go `strings.LastIndex`: offset of the last occurrence of `sub` in `s`, or `-1`. -/
def lastIndex (s sub : Str) : Int := lastIndexFrom sub s 0 (-1)

/-- Go slice expression `s[:n]` on a string; `none` is the out-of-range panic. -/
def sliceTo (s : Str) (n : Int) : Option Str :=
  if 0 ≤ n ∧ n ≤ (s.length : Int) then some (s.take n.toNat) else none

/-- Go slice expression `s[n:]` on a string; `none` is the out-of-range panic. -/
def sliceFrom (s : Str) (n : Nat) : Option Str :=
  if n ≤ s.length then some (s.drop n) else none

/-! ## Hexadecimal (`encoding/hex`) -/

/-- Go `fromHexChar`: the value of one hexadecimal digit. -/
def fromHexChar (c : Byte) : Option Nat :=
  if 48 ≤ c.val ∧ c.val ≤ 57 then some (c.val - 48)
  else if 97 ≤ c.val ∧ c.val ≤ 102 then some (c.val - 97 + 10)
  else if 65 ≤ c.val ∧ c.val ≤ 70 then some (c.val - 65 + 10)
  else none

/-- Go `hex.DecodeString` with the error dropped (`x, _ := hex.DecodeString(s)`): the bytes
decoded before the first invalid digit. -/
def hexDecode : Bytes → Bytes
  | p :: q :: rest =>
    match fromHexChar p, fromHexChar q with
    | some a, some b => Fin.ofNat (a * 16 + b) :: hexDecode rest
    | _, _ => []
  | _ => []

/-- The table "0123456789abcdef" of `encoding/hex`. -/
def hexDigit (n : Nat) : Byte :=
  if n < 10 then Fin.ofNat (48 + n) else Fin.ofNat (87 + n)

/-- Go `hex.EncodeToString`, as bytes. -/
def hexEncode : Bytes → Bytes
  | [] => []
  | b :: rest => hexDigit (b.val / 16) :: hexDigit (b.val % 16) :: hexEncode rest

/-- Whether a byte is a hexadecimal digit. -/
def isHexDigit (c : Byte) : Bool := (fromHexChar c).isSome

/-- Lower-case form of a hexadecimal digit (`A`..`F` become `a`..`f`). -/
def lowerHex (c : Byte) : Byte :=
  if 65 ≤ c.val ∧ c.val ≤ 70 then Fin.ofNat (c.val + 32) else c

/-- Lines 142-147 of `download`: the value of `hash` after the optional hexadecimal decoding
of the first 64 bytes. -/
def hashCandidate (body : Bytes) : Bytes :=
  if 64 ≤ body.length then
    if (hexDecode (body.take 64)).length = 32 then hexDecode (body.take 64) else body
  else body

/-- Lines 140-150 of `download`: the hash resource is accepted either as 64 hexadecimal digits
(followed by anything) or as 32 raw bytes. -/
def acceptHash (body : Bytes) : Except Error Bytes :=
  if (hashCandidate body).length ≠ 32 then
    .error (.serverHashLength (hashCandidate body).length)
  else .ok (hashCandidate body)

/-! ## Paths (`path/filepath`) -/

/-- The path separators of the platform: `/` and the backslash. -/
def isSep (c : Char) : Bool := c = '/' ∨ c = Char.ofNat 92

/-- Split a name at the separators. -/
def splitSep : Str → List Str
  | [] => [[]]
  | c :: cs =>
    if isSep c then [] :: splitSep cs
    else
      match splitSep cs with
      | [] => [[c]]
      | x :: xs => (c :: x) :: xs

/-- One step of `filepath.Clean` on a rooted path: empty and `.` components vanish, `..` goes
up (never above the root). -/
def cleanStep (p : Path) (c : Str) : Path :=
  if c = [] ∨ c = ['.'] then p
  else if c = ['.', '.'] then p.dropLast
  else p ++ [c]

/-- Go `filepath.Join(dir, name)` for a clean rooted `dir`. -/
def join (dir : Path) (name : Str) : Path := (splitSep name).foldl cleanStep dir

/-- A name that is a single path component: not empty, not `.` or `..`, without separator. -/
def isPlainName (name : Str) : Bool :=
  decide (name ≠ []) && decide (name ≠ ['.']) && decide (name ≠ ['.', '.']) &&
    name.all (fun c => !isSep c)

/-- Go `filepath.Dir`. -/
def dir (p : Path) : Path := p.dropLast

/-- Go `filepath.Base`; the base of the root is the separator. -/
def base (p : Path) : Str :=
  match p.getLast? with
  | some x => x
  | none => [Char.ofNat 92]

/-- The string form of a rooted path (volume name omitted). -/
def render : Path → Str
  | [] => [Char.ofNat 92]
  | c :: cs => (Char.ofNat 92 :: c) ++ (if cs = [] then [] else render cs)

/-- String concatenation onto a path: `p + suffix` extends the last component. -/
def addSuffix (p : Path) (suffix : Str) : Path :=
  match p.getLast? with
  | some x => p.dropLast ++ [x ++ suffix]
  | none => join [] (Char.ofNat 92 :: suffix)

/-! ## File system -/

/-- A node of the file system. -/
inductive Node where
  | file (data : Bytes)
  | dir
deriving DecidableEq, Repr

/-- The file system: its entries, and the paths that another process holds open. -/
structure FS where
  entries : List (Path × Node)
  locked : List Path
deriving DecidableEq, Repr

/-- First entry stored for a path. -/
def lookup : List (Path × Node) → Path → Option Node
  | [], _ => none
  | (q, n) :: rest, p => if q = p then some n else lookup rest p

/-- What `os.Stat` sees at a path; the root is always a directory. -/
def FS.get (fs : FS) (p : Path) : Option Node :=
  if p = [] then some .dir else lookup fs.entries p

/-- Store a node at a path, replacing what was there. -/
def FS.put (fs : FS) (p : Path) (n : Node) : FS :=
  { fs with entries := (p, n) :: fs.entries.filter (fun e => e.1 ≠ p) }

/-- Drop the entry of a path. -/
def FS.del (fs : FS) (p : Path) : FS :=
  { fs with entries := fs.entries.filter (fun e => e.1 ≠ p) }

/-- Whether an existing locked entry lies at or below `q`. -/
def FS.blocked (fs : FS) (q : Path) : Bool :=
  fs.locked.any (fun l => q.isPrefixOf l && (fs.get l).isSome)

/-- Go `ioutil.ReadFile`. -/
def readFile (fs : FS) (p : Path) : Except Error Bytes :=
  match fs.get p with
  | some (.file d) => .ok d
  | _ => .error (.io .read p)

/-- Go `ioutil.WriteFile` (also `os.Create` followed by writes): create or truncate the file;
the parent directory is not created. -/
def writeFile (fs : FS) (p : Path) (data : Bytes) : Except Error FS :=
  if p ∈ fs.locked then .error (.io .write p)
  else if fs.get p = some .dir then .error (.io .write p)
  else if fs.get p.dropLast = some .dir then .ok (fs.put p (.file data))
  else .error (.io .write p)

/-- Go `os.Remove`: a file or an empty directory. -/
def remove (fs : FS) (p : Path) : Except Error FS :=
  if p ∈ fs.locked then .error (.io .remove p)
  else
    match fs.get p with
    | none => .error (.io .remove p)
    | some (.file _) => .ok (fs.del p)
    | some .dir =>
      if p = [] ∨ fs.entries.any (fun e => p.isPrefixOf e.1 && decide (e.1 ≠ p)) then
        .error (.io .remove p)
      else .ok (fs.del p)

/-- Go `os.RemoveAll`: everything at or below `p` goes, except what leads to a locked entry;
the result is an error exactly when something had to stay. -/
def removeAll (fs : FS) (p : Path) : Option Error × FS :=
  (if fs.blocked p then some (.io .removeAll p) else none,
   { fs with entries := fs.entries.filter (fun e => !(p.isPrefixOf e.1) || fs.blocked e.1) })

/-- Go `os.MkdirAll`, on the reversed path: an existing directory is accepted, an existing file
is an error, otherwise the parent is made first. -/
def mkdirAllRev (fs : FS) : List Str → Except Error FS
  | [] => .ok fs
  | name :: up =>
    match fs.get (name :: up).reverse with
    | some .dir => .ok fs
    | some (.file _) => .error (.io .mkdir (name :: up).reverse)
    | none =>
      match mkdirAllRev fs up with
      | .error e => .error e
      | .ok fs1 => .ok (fs1.put (name :: up).reverse .dir)

/-- Go `os.MkdirAll`. -/
def mkdirAll (fs : FS) (p : Path) : Except Error FS := mkdirAllRev fs p.reverse

/-- Go `os.Rename` (replacing an existing destination file). -/
def rename (fs : FS) (a b : Path) : Except Error FS :=
  if fs.get a = none ∨ a = [] ∨ fs.blocked a ∨ b ∈ fs.locked then .error (.io .rename a)
  else if a = b then .ok fs
  else if fs.get b = some .dir ∨ fs.get b.dropLast ≠ some .dir ∨ a.isPrefixOf b then
    .error (.io .rename a)
  else
    .ok { fs with entries := (fs.entries.filter (fun e => e.1 ≠ b)).map (fun e =>
            if a.isPrefixOf e.1 then (b ++ e.1.drop a.length, e.2) else e) }

/-- The function `copyFile` of the source. -/
def copyFile (fs : FS) (src dst : Path) : Except Error FS :=
  match readFile fs src with
  | .error e => .error e
  | .ok bytes => writeFile fs dst bytes

/-! ## Walking a tree (`filepath.Walk`) -/

/-- Byte-wise order on names, as used by `sort.Strings`. -/
def strLt : Str → Str → Bool
  | [], [] => false
  | [], _ :: _ => true
  | _ :: _, [] => false
  | a :: as, b :: bs =>
    if a.toNat < b.toNat then true
    else if b.toNat < a.toNat then false
    else strLt as bs

/-- Component-wise lexical order on paths: the order in which `filepath.Walk` visits. -/
def pathLt : Path → Path → Bool
  | [], [] => false
  | [], _ :: _ => true
  | _ :: _, [] => false
  | a :: as, b :: bs =>
    if strLt a b then true
    else if strLt b a then false
    else pathLt as bs

/-- Insert a path into a sorted list of distinct paths. -/
def insertPath (p : Path) : List Path → List Path
  | [] => [p]
  | q :: qs =>
    if p = q then q :: qs
    else if pathLt p q then p :: q :: qs
    else q :: insertPath p qs

/-- Sort paths in walk order, without repetition. -/
def sortPaths (l : List Path) : List Path := l.foldr insertPath []

/-- The visits of `filepath.Walk(root, fn)`: the root and everything below it in lexical order,
each with `info.IsDir()`. `none` when the root does not exist: `fn` is then called with a nil
`info`, which both callbacks of `syncDirs` dereference. -/
def walk (fs : FS) (root : Path) : Option (List (Path × Bool)) :=
  match fs.get root with
  | none => none
  | some n =>
    some ((root, decide (n = .dir)) ::
      (sortPaths ((fs.entries.map Prod.fst).filter
          (fun p => root.isPrefixOf p && decide (p ≠ root)))).map
        (fun p => (p, decide (fs.get p = some .dir))))

/-! ## The world the program runs in -/

/-- One entry of a zip archive; `data = none` is an entry that cannot be opened or read. -/
structure ZipEntry where
  name : Str
  data : Option Bytes
deriving DecidableEq, Repr

/-- The library functions the program calls. -/
structure Lib where
  /-- The function `sha256.Sum256`; its result type is `[32]byte`. -/
  sha256 : Bytes → Bytes
  /-- Reading everything from `bzip2.NewReader`. -/
  bunzip2 : Bytes → Option Bytes
  /-- The entries found by `zip.NewReader`. -/
  unzip : Bytes → Option (List ZipEntry)

/-- State and environment of one run of the process. -/
structure World where
  /-- Result of `os.Executable()`. -/
  exe : Option Path
  fs : FS
  /-- What the server answers to a GET of a URL (`none`: the request fails). -/
  net : Str → Option Bytes
  /-- Named mutexes that already exist. -/
  mutexHeld : Str → Bool
  /-- Values of `time.Now().Sub(startTime)`, in nanoseconds, at the successive evaluations of
  the loop condition of `update`; once they are used up the timeout has elapsed. -/
  clock : List Nat
  /-- Number of coming rename attempts that the operating system refuses because the exiting
  host still holds its executable. -/
  exeBusy : Nat
  /-- URLs requested so far. -/
  requests : List Str
  /-- Processes started so far. -/
  launched : List Path
  /-- Lines written to the log so far. -/
  logs : List LogMsg
  /-- Lines printed so far. -/
  stdout : List String

/-- The function `log` of the source. -/
def World.log (w : World) (m : LogMsg) : World := { w with logs := w.logs ++ [m] }

/-- The function `fmt.Printf`. -/
def World.print (w : World) (s : String) : World := { w with stdout := w.stdout ++ [s] }

/-- Record a request. -/
def World.request (w : World) (url : Str) : World := { w with requests := w.requests ++ [url] }

/-- Replace the file system. -/
def World.setFS (w : World) (fs : FS) : World := { w with fs := fs }

/-- The constant `updateTimeout`, in nanoseconds. -/
def updateTimeout : Nat := 1000000000

/-- Suffix of the URL of the hash resource. -/
def hashSuffix : Str := ".sha256".toList

/-- Suffix of the URL of a bzip2-compressed archive. -/
def bz2Suffix : Str := ".bz2".toList

/-- Suffix of the name of the staged directory. -/
def nextSuffix : Str := "-next".toList

/-- Suffix of the name of the working-copy directory. -/
def tempSuffix : Str := "-temp".toList

/-- Suffix of the name of the disabled executable. -/
def disabledSuffix : Str := ".disabled".toList

/-- Name of the Ready Marker. -/
def readyName : Str := "update.ready".toList

/-- Name of the Archive Hash Marker. -/
def markerName : Str := "winupdate.this.sha256".toList

/-- Name of the updater executable. -/
def exeName : Str := "winupdate.exe".toList

/-! ## The program -/

/-- The three directories for a product directory name `final` below `twoUp`. -/
def triad (twoUp : Path) (final : Str) : Path × Path × Path :=
  (join twoUp final, join twoUp (final ++ nextSuffix), join twoUp (final ++ tempSuffix))

/-- The function `appDirs` of the source. -/
def appDirs (exe : Option Path) : Res (Path × Path × Path) :=
  match exe with
  | none => .err .executable
  | some path =>
    let final := base (dir path)
    let twoUp := dir (dir path)
    if index final tempSuffix ≠ -1 then
      match sliceTo final ((final.length : Int) - 5) with
      | none => .panic
      | some final1 => .ok (triad twoUp final1)
    else if index final nextSuffix ≠ -1 then
      match sliceTo final ((final.length : Int) - 7) with
      | none => .panic
      | some final1 => .ok (triad twoUp final1)
    else .ok (triad twoUp final)

/-- The function `appID` of the source. -/
def appID (exe : Option Path) : Res Str :=
  match appDirs exe with
  | .panic => .panic
  | .err e => .err e
  | .ok (baseDir, _, _) =>
    let twoUp := dir (dir baseDir)
    match sliceFrom (render baseDir) ((render twoUp).length + 1) with
    | none => .panic
    | some s => .ok s

/-- The function `isReadyForUpdate` of the source (`none`: `appDirs` panicked). -/
def isReadyForUpdate (w : World) : Option Bool :=
  match appDirs w.exe with
  | .panic => none
  | .err _ => some false
  | .ok (_, next, _) => some (w.fs.get (join next readyName)).isSome

/-- Lines 153-159 of `download`: whether the installed Archive Hash Marker has 64 bytes that
decode to `hash`. A marker that cannot be read counts as empty. -/
def hashIsCurrent (fs : FS) (baseDir : Path) (hash : Bytes) : Bool :=
  let currentHashHex :=
    match readFile fs (join baseDir markerName) with
    | .ok d => d
    | .error _ => []
  decide (currentHashHex.length = 64) && decide (hexDecode currentHashHex = hash)

/-- Lines 217-234 of `download`: every entry is created below `nextDir` and filled. -/
def extract (nextDir : Path) : List ZipEntry → FS → Option Error × FS
  | [], fs => (none, fs)
  | f :: rest, fs =>
    match writeFile fs (join nextDir f.name) [] with
    | .error e => (some e, fs)
    | .ok fs1 =>
      match f.data with
      | none => (some .zip, fs1)
      | some d => extract nextDir rest (fs1.put (join nextDir f.name) (.file d))

/-- Lines 184-191 of `download`: the archive is run through bzip2 when the last `.bz2` of the
URL sits four bytes before its end (`none`: the bzip2 reader fails). -/
def decompress (L : Lib) (zipUrl : Str) (archive : Bytes) : Option Bytes :=
  if lastIndex zipUrl bz2Suffix = (zipUrl.length : Int) - 4 then L.bunzip2 archive
  else some archive

/-- Lines 193-256 of `download`: the staged and working-copy directories are made afresh, the
archive is unpacked, the hash marker is written, the updater is copied and the Ready Marker is
created. -/
def stage (L : Lib) (w5 : World) (nextDir tempDir : Path) (zipArchive hash : Bytes) :
    Res Unit × World :=
  let w6 := w5.log (.text "Make temp dirs")
  match removeAll w6.fs nextDir with
  | (some e, fs1) => (.err e, w6.setFS fs1)
  | (none, fs1) =>
  match removeAll fs1 tempDir with
  | (some e, fs2) => (.err e, w6.setFS fs2)
  | (none, fs2) =>
  match mkdirAll fs2 nextDir with
  | .error e => (.err e, w6.setFS fs2)
  | .ok fs3 =>
  match mkdirAll fs3 tempDir with
  | .error e => (.err e, w6.setFS fs3)
  | .ok fs4 =>
  let w7 := (w6.setFS fs4).log (.text "Unzip")
  match L.unzip zipArchive with
  | none => (.err .zip, w7)
  | some files =>
  match extract nextDir files fs4 with
  | (some e, fs5) => (.err e, w7.setFS fs5)
  | (none, fs5) =>
  match writeFile fs5 (join nextDir markerName) (hexEncode hash) with
  | .error e => (.err e, w7.setFS fs5)
  | .ok fs6 =>
  let w8 := (w7.setFS fs6).log (.text "Copy to temp")
  match copyFile fs6 (join nextDir exeName) (join tempDir exeName) with
  | .error e => (.err e, w8)
  | .ok fs7 =>
  let w9 := (w8.setFS fs7).log (.text "Ready")
  match writeFile fs7 (join nextDir readyName) [] with
  | .error e => (.err e, w9)
  | .ok fs8 => (.ok (), w9.setFS fs8)

/-- Lines 152-191 of `download`, continued by `stage`: what runs once the hash resource has
been accepted as `hash` (`w1` is the world after the hash request). -/
def downloadWithHash (L : Lib) (w1 : World) (zipUrl : Str) (baseDir nextDir tempDir : Path)
    (hash : Bytes) : Res Unit × World :=
  let w2 := w1.log (.text "Checking whether hash is new")
  if hashIsCurrent w2.fs baseDir hash then (.err .noUpdateAvailable, w2)
  else
  let w3 := (w2.log (.text "Download archive")).request zipUrl
  match w3.net zipUrl with
  | none => (.err (.http zipUrl), w3)
  | some archive =>
  let w4 := w3.log (.text "Verify hash")
  if hash.length ≠ 32 then (.err .hashInvalidLength, w4)
  else if hash ≠ L.sha256 archive then (.err .hashMismatch, w4)
  else
  let isBz2 : Bool := decide (lastIndex zipUrl bz2Suffix = (zipUrl.length : Int) - 4)
  let w5 := if isBz2 then w4.log (.text "Decompress bzip2") else w4
  match decompress L zipUrl archive with
  | none => (.err .bzip2, w5)
  | some zipArchive => stage L w5 nextDir tempDir zipArchive hash

/-- The function `download` of the source: lines 118-150, continued by `downloadWithHash`. -/
def download (L : Lib) (w : World) (zipUrl : Str) : Res Unit × World :=
  match isReadyForUpdate w with
  | none => (.panic, w)
  | some true => (.ok (), w)
  | some false =>
  match appDirs w.exe with
  | .panic => (.panic, w)
  | .err e => (.err e, w)
  | .ok (baseDir, nextDir, tempDir) =>
  let w1 := (w.log (.text "Download hash")).request (zipUrl ++ hashSuffix)
  match w1.net (zipUrl ++ hashSuffix) with
  | none => (.err (.http (zipUrl ++ hashSuffix)), w1)
  | some body =>
  match acceptHash body with
  | .error e => (.err e, w1)
  | .ok hash => downloadWithHash L w1 zipUrl baseDir nextDir tempDir hash

/-- First callback of `syncDirs`: copy every file of the walk of `src` to the same relative
path below `dst`, remembering the first error. -/
def copyPhase (src dst : Path) : List (Path × Bool) → World → Option Error → World × Option Error
  | [], w, firstErr => (w, firstErr)
  | (path, isDir) :: rest, w, firstErr =>
    if isDir then copyPhase src dst rest w firstErr
    else
      let dstPath := dst ++ path.drop src.length
      let w1 := w.log (.copy path dstPath)
      match copyFile w1.fs path dstPath with
      | .ok fs1 => copyPhase src dst rest (w1.setFS fs1) firstErr
      | .error copyErr =>
        copyPhase src dst rest w1 (if firstErr = none then some copyErr else firstErr)

/-- Second callback of `syncDirs`: remove every file of the walk of `dst` that has nothing at
the same relative path below `src`. The error of a failed removal replaces `firstErr` only
when `firstErr` is already set (line 287: `delErr != nil && firstErr != nil`). -/
def deletePhase (src dst : Path) : List (Path × Bool) → World → Option Error → World × Option Error
  | [], w, firstErr => (w, firstErr)
  | (path, isDir) :: rest, w, firstErr =>
    if isDir then deletePhase src dst rest w firstErr
    else
      let srcPath := src ++ path.drop dst.length
      if (w.fs.get srcPath).isSome then deletePhase src dst rest w firstErr
      else
        let w1 := w.log (.delete srcPath)
        match remove w1.fs path with
        | .ok fs1 => deletePhase src dst rest (w1.setFS fs1) firstErr
        | .error delErr =>
          deletePhase src dst rest w1 (if firstErr ≠ none then some delErr else firstErr)

/-- The function `syncDirs` of the source. -/
def syncDirs (w : World) (src dst : Path) : Res Unit × World :=
  match walk w.fs src with
  | none => (.panic, w)
  | some l1 =>
    match copyPhase src dst l1 w none with
    | (w1, e1) =>
      match walk w1.fs dst with
      | none => (.panic, w1)
      | some l2 =>
        match deletePhase src dst l2 w1 e1 with
        | (w2, none) => (.ok (), w2)
        | (w2, some e) => (.err e, w2)

/-- One call of `os.Rename` on the live executable. -/
def osRename (w : World) (a b : Path) : Option Error × World :=
  if 0 < w.exeBusy then (some (.io .rename a), { w with exeBusy := w.exeBusy - 1 })
  else
    match rename w.fs a b with
    | .error e => (some e, w)
    | .ok fs1 => (none, w.setFS fs1)

/-- Lines 310-314 of `update`: rename until it works or the clock passes the timeout. `err` is
the variable `err` of the source, which the loop overwrites at every attempt. -/
def disableLoop (mainAppPath disabledAppPath : Path) :
    List Nat → Option Error → World → Option Error × World
  | [], err, w => (err, { w with clock := [] })
  | t :: ts, err, w =>
    if t < updateTimeout then
      match osRename w mainAppPath disabledAppPath with
      | (none, w1) => (none, { w1 with clock := ts })
      | (some e, w1) => disableLoop mainAppPath disabledAppPath ts (some e) w1
    else (err, { w with clock := ts })

/-- The calls `exec.Command(path)` and `cmd.Start()`. -/
def start (w : World) (path : Path) : Option Error × World :=
  match w.fs.get path with
  | some (.file _) => (none, { w with launched := w.launched ++ [path] })
  | _ => (some (.io .start path), w)

/-- The function `update` of the source. -/
def update (w : World) (mainAppExe : Str) : Res Unit × World :=
  match appDirs w.exe with
  | .panic => (.panic, w)
  | .err e => (.err e, w)
  | .ok (baseDir, next, _) =>
  let w1 := w.log (.text "Disable app")
  let mainAppPath := join baseDir mainAppExe
  let disabledAppPath := addSuffix (join baseDir mainAppExe) disabledSuffix
  match disableLoop mainAppPath disabledAppPath w1.clock none w1 with
  | (some e, w2) => (.err e, w2.log (.text "Disable failed"))
  | (none, w2) =>
  let w3 := w2.log (.text "Sync next to current")
  match syncDirs w3 next baseDir with
  | (.panic, w4) => (.panic, w4)
  | (.err e, w4) => (.err e, (start (w4.log (.text "Sync failed")) mainAppPath).2)
  | (.ok _, w4) =>
    match start (w4.log (.text "Done")) mainAppPath with
    | (launchErr, w5) =>
      let w6 := w5.log (.text "Cleanup")
      let w7 := w6.setFS (removeAll w6.fs next).2
      let w8 :=
        match remove w7.fs (join baseDir readyName) with
        | .ok fs1 => w7.setFS fs1
        | .error _ => w7
      match launchErr with
      | none => (.ok (), w8)
      | some e => (.err e, w8)

/-- Lines 357-358 of `main`: the name of the mutex for an Application Identity. -/
def lockName (self : Str) : Str :=
  "winupdate-runner-lock-".toList ++ self.map (fun c => if c = Char.ofNat 92 then '-' else c)

/-- The verb `update` of the command line. -/
def updateVerb : Str := "update".toList

/-- The verb `download` of the command line. -/
def downloadVerb : Str := "download".toList

/-- The usage line printed by `main`. -/
def usage : String := "winupdate [update appname.exe|download archive_url]"

/-- The function `main` of the source: the exit status of the process and the final world.
A process that returns from `main` exits with status 0; a panic exits with status 2. -/
def main (L : Lib) (w : World) (args : List Str) : Nat × World :=
  match appID w.exe with
  | .panic => (2, w)
  | .err _ => (1, w.print "Failed to get appID")
  | .ok self =>
    if w.mutexHeld (lockName self) then (1, w.print "another instance is already running")
    else
      match args with
      | [_, verb, arg] =>
        if verb = updateVerb then
          match update (w.log (.text "-- update")) arg with
          | (.panic, w1) => (2, w1)
          | (.err e, w1) => (0, w1.log (.error e))
          | (.ok _, w1) => (0, w1)
        else if verb = downloadVerb then
          match download L (w.log (.text "-- download")) arg with
          | (.panic, w1) => (2, w1)
          | (.err e, w1) => if e ≠ .noUpdateAvailable then (0, w1.log (.error e)) else (0, w1)
          | (.ok _, w1) => (0, w1)
        else (1, w.print usage)
      | _ => (1, w.print usage)

/-! ## Concrete inputs -/

/-- A path from its components. -/
def mkPath (l : List String) : Path := l.map String.toList

/-- The bytes of an ASCII text. -/
def ascii (s : String) : Bytes := s.toList.map (fun c => Fin.ofNat c.toNat)

/-- A stand-in for the library, for concrete runs: the digest of an archive is 32 copies of its
length, bzip2 is the identity and every archive holds the given entries. -/
def toyLib (entries : List ZipEntry) : Lib :=
  { sha256 := fun a => List.replicate 32 (Fin.ofNat a.length)
    bunzip2 := fun a => some a
    unzip := fun _ => some entries }

/-- The updater of the product `Acme/Widget`, run from the installed directory. -/
def exExe : Path := mkPath ["Acme", "Widget", "winupdate.exe"]

/-- The archive location used in the examples. -/
def exUrl : Str := "http://example.org/widget.zip".toList

/-- A two-byte archive body; its stand-in digest is `exHash`. -/
def exArchive : Bytes := ascii "PK"

/-- The stand-in digest of `exArchive`. -/
def exHash : Bytes := List.replicate 32 2

/-- An installation of `Acme/Widget` holding `extra` besides the installed files. -/
def exFS (extra : List (Path × Node)) : FS :=
  { entries := extra ++
      [(mkPath ["Acme"], .dir),
       (mkPath ["Acme", "Widget"], .dir),
       (mkPath ["Acme", "Widget", "winupdate.exe"], .file (ascii "updater-1")),
       (mkPath ["Acme", "Widget", "widget.exe"], .file (ascii "widget-1"))]
    locked := [] }

/-- A server publishing `hashBody` as the hash resource of `exUrl` and `archive` at `exUrl`. -/
def exNet (hashBody archive : Bytes) : Str → Option Bytes :=
  fun u => if u = exUrl ++ hashSuffix then some hashBody else if u = exUrl then some archive
    else none

/-- A world with the given file system and server, and nothing else going on. -/
def exWorld (fs : FS) (net : Str → Option Bytes) : World :=
  { exe := some exExe
    fs := fs
    net := net
    mutexHeld := fun _ => false
    clock := [0]
    exeBusy := 0
    requests := []
    launched := []
    logs := []
    stdout := [] }

/-- A world whose server publishes a raw hash that the archive does not have. -/
def mismatchWorld : World := exWorld (exFS []) (exNet (List.replicate 32 5) exArchive)

/-- A world whose server publishes a hash resource of 40 bytes. -/
def badHashWorld : World := exWorld (exFS []) (exNet (List.replicate 40 5) exArchive)

/-- A world in which the installed version is the published one. -/
def currentWorld : World :=
  exWorld (exFS [(mkPath ["Acme", "Widget", "winupdate.this.sha256"], .file (hexEncode exHash))])
    (exNet exHash exArchive)

/-- A world in which the installed version is the published one while a Ready Marker is still
present in the staged directory. -/
def currentReadyWorld : World :=
  exWorld (exFS
    [(mkPath ["Acme", "Widget", "winupdate.this.sha256"], .file (hexEncode exHash)),
     (mkPath ["Acme", "Widget-next"], .dir),
     (mkPath ["Acme", "Widget-next", "update.ready"], .file [])])
    (exNet exHash exArchive)

/-- An installation of `Acme/Widget` with a complete staged update next to it; `locked` are the
files that another process holds open. -/
def stagedFS (locked : List Path) : FS :=
  { entries :=
      [(mkPath ["Acme"], .dir),
       (mkPath ["Acme", "Widget"], .dir),
       (mkPath ["Acme", "Widget", "widget.exe"], .file (ascii "widget-1")),
       (mkPath ["Acme", "Widget", "winupdate.exe"], .file (ascii "updater-1")),
       (mkPath ["Acme", "Widget-next"], .dir),
       (mkPath ["Acme", "Widget-next", "widget.exe"], .file (ascii "widget-2")),
       (mkPath ["Acme", "Widget-next", "data.bin"], .file (ascii "data-2")),
       (mkPath ["Acme", "Widget-next", "winupdate.exe"], .file (ascii "updater-2")),
       (mkPath ["Acme", "Widget-next", "update.ready"], .file []),
       (mkPath ["Acme", "Widget-temp"], .dir),
       (mkPath ["Acme", "Widget-temp", "winupdate.exe"], .file (ascii "updater-2"))]
    locked := locked }

/-- The updater run from the working copy while the host still holds `widget.exe`; the first
reading of the clock in the loop condition of `update` is already 1.5 seconds. -/
def lateWorld : World :=
  { exe := some (mkPath ["Acme", "Widget-temp", "winupdate.exe"])
    fs := stagedFS [mkPath ["Acme", "Widget", "widget.exe"]]
    net := fun _ => none
    mutexHeld := fun _ => false
    clock := [1500000000]
    exeBusy := 0
    requests := []
    launched := []
    logs := []
    stdout := [] }

/-- The same run with a clock that allows three attempts before the timeout. -/
def busyWorld : World := { lateWorld with clock := [10, 400000000, 900000000, 1300000000] }

/-- A source tree with the file `a` and a destination tree that has `a` and a file `stale`
held open by another process. -/
def staleLockedWorld : World :=
  { exe := none
    fs :=
      { entries :=
          [(mkPath ["S"], .dir),
           (mkPath ["S", "a"], .file (ascii "new")),
           (mkPath ["D"], .dir),
           (mkPath ["D", "a"], .file (ascii "old")),
           (mkPath ["D", "stale"], .file (ascii "gone"))]
        locked := [mkPath ["D", "stale"]] }
    net := fun _ => none
    mutexHeld := fun _ => false
    clock := []
    exeBusy := 0
    requests := []
    launched := []
    logs := []
    stdout := [] }

/-- The same trees with the destination file `a` held open as well. -/
def bothLockedWorld : World :=
  { staleLockedWorld with
    fs := { staleLockedWorld.fs with locked := [mkPath ["D", "a"], mkPath ["D", "stale"]] } }

/-- The updater of `Acme/Widget` below a user profile, located in the directory `dirName`. -/
def profileExe (dirName : String) : Path :=
  mkPath ["Users", "bob", "AppData", "Local", "Acme", dirName, "winupdate.exe"]

/-- The parent of the three installation directories of `profileExe`. -/
def profileParent : Path := mkPath ["Users", "bob", "AppData", "Local", "Acme"]

/-- A world holding only the given entries, nothing locked. -/
def treeWorld (entries : List (Path × Node)) : World :=
  { exe := none
    fs := { entries := entries, locked := [] }
    net := fun _ => none
    mutexHeld := fun _ => false
    clock := []
    exeBusy := 0
    requests := []
    launched := []
    logs := []
    stdout := [] }

/-- The source tree has a file in a subdirectory that the destination tree lacks. -/
def subdirWorld : World :=
  treeWorld
    [(mkPath ["S"], .dir),
     (mkPath ["S", "sub"], .dir),
     (mkPath ["S", "sub", "a.txt"], .file (ascii "A")),
     (mkPath ["D"], .dir)]

/-- The destination tree has a file where the source tree has a directory. -/
def clashWorld : World :=
  treeWorld
    [(mkPath ["S"], .dir),
     (mkPath ["S", "x"], .dir),
     (mkPath ["D"], .dir),
     (mkPath ["D", "x"], .file (ascii "X"))]

/-- Two flat trees: the destination has an older `a` and a stale file. -/
def flatWorld : World :=
  treeWorld
    [(mkPath ["S"], .dir),
     (mkPath ["S", "a"], .file (ascii "new")),
     (mkPath ["S", "b"], .file (ascii "b")),
     (mkPath ["D"], .dir),
     (mkPath ["D", "a"], .file (ascii "old")),
     (mkPath ["D", "stale"], .file (ascii "gone"))]

/-- A world whose server publishes `exArchive` with its stand-in digest, nothing being staged
or installed yet beyond the program files. -/
def freshWorld : World := exWorld (exFS []) (exNet exHash exArchive)

/-- An archive with the new updater, the application and a data file. -/
def fullEntries : List ZipEntry :=
  [⟨"winupdate.exe".toList, some (ascii "updater-2")⟩,
   ⟨"widget.exe".toList, some (ascii "widget-2")⟩,
   ⟨"data.bin".toList, some (ascii "data-2")⟩]

/-- An archive without `winupdate.exe`. -/
def dataEntries : List ZipEntry := [⟨"data.bin".toList, some (ascii "data-2")⟩]

/-- An archive without `winupdate.exe` that carries an entry named like the Ready Marker. -/
def readyEntries : List ZipEntry :=
  [⟨"update.ready".toList, some []⟩, ⟨"data.bin".toList, some (ascii "data-2")⟩]

theorem fromHexChar_spec (c : Byte) (a : Nat) (h : fromHexChar c = some a) :
    a < 16 ∧ hexDigit a = lowerHex c := by
  obtain ⟨v, hv⟩ := c
  simp only [fromHexChar] at h
  split_ifs at h with h1 h2 h3
  all_goals simp only [Option.some.injEq] at h
  all_goals subst h
  all_goals refine ⟨by omega, ?_⟩
  all_goals simp only [hexDigit, lowerHex]
  all_goals split_ifs
  all_goals first
    | omega
    | (apply Fin.ext; simp only [Fin.ofNat]; omega)

theorem hexDecode_encode (n : Nat) : ∀ l : Bytes, l.length = 2 * n →
    (∀ c ∈ l, isHexDigit c = true) →
    (hexDecode l).length = n ∧ hexEncode (hexDecode l) = l.map lowerHex := by
  induction n with
  | zero =>
    intro l hl _
    have : l = [] := List.length_eq_zero.mp (by omega)
    subst this
    simp [hexDecode, hexEncode]
  | succ n ih =>
    intro l hl hhex
    match l, hl, hhex with
    | p :: q :: rest, hl, hhex =>
      have hp : isHexDigit p = true := hhex p (by simp)
      have hq : isHexDigit q = true := hhex q (by simp)
      obtain ⟨a, ha⟩ := Option.isSome_iff_exists.mp hp
      obtain ⟨b, hb⟩ := Option.isSome_iff_exists.mp hq
      obtain ⟨ha16, hae⟩ := fromHexChar_spec p a ha
      obtain ⟨hb16, hbe⟩ := fromHexChar_spec q b hb
      have hrest := ih rest (by simp at hl; omega) (fun c hc => hhex c (by simp [hc]))
      have hval : (Fin.ofNat (a * 16 + b) : Byte).val = a * 16 + b := by
        simp only [Fin.ofNat]; omega
      simp only [hexDecode, ha, hb, hexEncode, List.length_cons, hrest.1, hval, List.map_cons,
        hrest.2, true_and]
      have h1 : (a * 16 + b) / 16 = a := by omega
      have h2 : (a * 16 + b) % 16 = b := by omega
      rw [h1, h2, hae, hbe]
    | [], hl, _ => simp at hl
    | [_], hl, _ => simp at hl; omega

theorem hexDecode_full (l : Bytes) (h : 2 * (hexDecode l).length = l.length) :
    ∀ c ∈ l, isHexDigit c = true := by
  match l with
  | [] => simp
  | [_] => simp [hexDecode] at h
  | p :: q :: rest =>
    simp only [hexDecode] at h
    split at h
    next a b ha hb =>
      simp only [List.length_cons] at h
      have := hexDecode_full rest (by omega)
      intro c hc
      simp only [List.mem_cons] at hc
      rcases hc with rfl | rfl | hc
      · simp [isHexDigit, ha]
      · simp [isHexDigit, hb]
      · exact this c hc
    next => simp at h

/-! ## Projections of the world -/

@[simp] theorem log_fs (w : World) (m : LogMsg) : (w.log m).fs = w.fs := rfl

@[simp] theorem log_net (w : World) (m : LogMsg) : (w.log m).net = w.net := rfl

@[simp] theorem log_exe (w : World) (m : LogMsg) : (w.log m).exe = w.exe := rfl

@[simp] theorem log_requests (w : World) (m : LogMsg) : (w.log m).requests = w.requests := rfl

@[simp] theorem log_launched (w : World) (m : LogMsg) : (w.log m).launched = w.launched := rfl

@[simp] theorem log_clock (w : World) (m : LogMsg) : (w.log m).clock = w.clock := rfl

@[simp] theorem log_logs (w : World) (m : LogMsg) : (w.log m).logs = w.logs ++ [m] := rfl

@[simp] theorem request_fs (w : World) (u : Str) : (w.request u).fs = w.fs := rfl

@[simp] theorem request_net (w : World) (u : Str) : (w.request u).net = w.net := rfl

@[simp] theorem request_requests (w : World) (u : Str) :
    (w.request u).requests = w.requests ++ [u] := rfl

@[simp] theorem setFS_fs (w : World) (fs : FS) : (w.setFS fs).fs = fs := rfl

@[simp] theorem setFS_net (w : World) (fs : FS) : (w.setFS fs).net = w.net := rfl

@[simp] theorem setFS_requests (w : World) (fs : FS) : (w.setFS fs).requests = w.requests := rfl

@[simp] theorem setFS_launched (w : World) (fs : FS) : (w.setFS fs).launched = w.launched := rfl

@[simp] theorem setFS_logs (w : World) (fs : FS) : (w.setFS fs).logs = w.logs := rfl

/-! ## The head of `download` -/

/-- With the directories resolved, no Ready Marker and the hash resource accepted as `h`,
`download` continues as `downloadWithHash` with that hash. -/
theorem download_eq_withHash (L : Lib) (w : World) (zipUrl : Str) (b h : Bytes)
    (baseDir nextDir tempDir : Path)
    (hdirs : appDirs w.exe = .ok (baseDir, nextDir, tempDir))
    (hready : w.fs.get (join nextDir readyName) = none)
    (hnet : w.net (zipUrl ++ hashSuffix) = some b)
    (hacc : acceptHash b = .ok h) :
    download L w zipUrl =
      downloadWithHash L ((w.log (.text "Download hash")).request (zipUrl ++ hashSuffix))
        zipUrl baseDir nextDir tempDir h := by
  simp [download, isReadyForUpdate, hdirs, hready, hnet, hacc]

/-- A URL differs from the URL of its hash resource. -/
theorem url_ne_hashUrl (zipUrl : Str) : zipUrl ≠ zipUrl ++ hashSuffix := by
  intro h
  have := congrArg List.length h
  simp [hashSuffix] at this

/-- When the hash resource is accepted as `h`, the installed marker does not hold it and the
archive `A` does not hash to it, `downloadWithHash` reports the mismatch and leaves the file
system alone. -/
theorem downloadWithHash_mismatch (L : Lib) (w : World) (zipUrl : Str) (h A : Bytes)
    (baseDir nextDir tempDir : Path)
    (hlen : h.length = 32)
    (hcur : hashIsCurrent w.fs baseDir h = false)
    (harch : w.net zipUrl = some A)
    (hmis : L.sha256 A ≠ h) :
    (downloadWithHash L w zipUrl baseDir nextDir tempDir h).1 = .err .hashMismatch ∧
    (downloadWithHash L w zipUrl baseDir nextDir tempDir h).2.fs = w.fs := by
  have hne : ¬ h = L.sha256 A := fun e => hmis e.symm
  simp [downloadWithHash, hcur, harch, hlen, hne]

/-- An accepted hash has 32 bytes. -/
theorem acceptHash_length (b h : Bytes) (hacc : acceptHash b = .ok h) : h.length = 32 := by
  unfold acceptHash at hacc
  split_ifs at hacc with h1
  simp only [Except.ok.injEq] at hacc
  subst hacc
  simpa using h1

/-! ## Hexadecimal round trip -/

theorem fromHexChar_hexDigit (n : Nat) (h : n < 16) : fromHexChar (hexDigit n) = some n := by
  interval_cases n <;> decide

theorem hexEncode_length (l : Bytes) : (hexEncode l).length = 2 * l.length := by
  induction l with
  | nil => rfl
  | cons b rest ih => simp only [hexEncode, List.length_cons, ih]; omega

theorem hexDecode_hexEncode (l : Bytes) : hexDecode (hexEncode l) = l := by
  induction l with
  | nil => rfl
  | cons b rest ih =>
    have h1 : b.val / 16 < 16 := by omega
    have h2 : b.val % 16 < 16 := by omega
    simp only [hexEncode, hexDecode, fromHexChar_hexDigit _ h1, fromHexChar_hexDigit _ h2, ih]
    congr 1
    apply Fin.ext
    simp only [Fin.ofNat]
    omega

/-- The installed marker that holds the hexadecimal encoding of a 32-byte hash is current. -/
theorem hashIsCurrent_of_marker (fs : FS) (baseDir : Path) (h : Bytes) (hlen : h.length = 32)
    (hmarker : readFile fs (join baseDir markerName) = .ok (hexEncode h)) :
    hashIsCurrent fs baseDir h = true := by
  simp [hashIsCurrent, hmarker, hexEncode_length, hlen, hexDecode_hexEncode]
/-! ## Supporting facts on `appDirs` -/

theorem indexFrom_of_suffix (sub : Str) : ∀ (s : Str) (i : Nat),
    indexFrom sub (s ++ sub) i ≠ -1 := by
  intro s
  induction s with
  | nil =>
    intro i
    cases sub with
    | nil => simp [indexFrom]
    | cons c cs => simp [indexFrom]
  | cons c cs ih =>
    intro i
    simp only [List.cons_append, indexFrom]
    split_ifs
    · omega
    · exact ih (i + 1)

theorem dir_concat (p : Path) (x : Str) : dir (p ++ [x]) = p := by
  simp [dir]

theorem base_concat (p : Path) (x : Str) : base (p ++ [x]) = x := by
  simp [base]

/-- Run from the installed directory `P/N` or from the working copy `P/N-temp`, `appDirs`
resolves the same three directories. -/
theorem appDirs_base_and_temp (P : Path) (N x : Str)
    (hnext : index N nextSuffix = -1) (htemp : index N tempSuffix = -1) :
    appDirs (some (P ++ [N, x])) = .ok (triad P N) ∧
    appDirs (some (P ++ [N ++ tempSuffix, x])) = .ok (triad P N) := by
  constructor
  · have e : P ++ [N, x] = (P ++ [N]) ++ [x] := by simp
    simp only [appDirs, e, dir_concat, base_concat]
    rw [if_neg (by simp [htemp]), if_neg (by simp [hnext])]
  · have e : P ++ [N ++ tempSuffix, x] = (P ++ [N ++ tempSuffix]) ++ [x] := by simp
    have hidx : index (N ++ tempSuffix) tempSuffix ≠ -1 := indexFrom_of_suffix _ _ _
    have hslice : sliceTo (N ++ tempSuffix) (((N ++ tempSuffix).length : Int) - 5) = some N := by
      have : (((N ++ tempSuffix).length : Int) - 5) = (N.length : Int) := by
        simp [tempSuffix]
      rw [this]
      simp [sliceTo]
    simp only [appDirs, e, dir_concat, base_concat]
    rw [if_pos hidx, hslice]
/-! ## Supporting facts on `update` -/

/-- A failed attempt to rename leaves everything but the busy counter as it was. -/
theorem osRename_fail (w : World) (a b : Path) (e : Error) (w1 : World)
    (h : osRename w a b = (some e, w1)) :
    w1.fs = w.fs ∧ w1.launched = w.launched ∧ w1.logs = w.logs ∧ e = .io .rename a := by
  unfold osRename at h
  split_ifs at h
  · simp only [Prod.mk.injEq, Option.some.injEq] at h
    obtain ⟨h1, h2⟩ := h
    subst h2
    exact ⟨rfl, rfl, rfl, h1.symm⟩
  · split at h
    · rename_i e1 he
      simp only [Prod.mk.injEq, Option.some.injEq] at h
      obtain ⟨h1, h2⟩ := h
      subst h2
      refine ⟨rfl, rfl, rfl, ?_⟩
      subst h1
      unfold rename at he
      split_ifs at he <;> simp_all
    · simp at h

/-- When the loop of `update` ends with an error, no rename has succeeded: the file system, the
started processes and the log are as before. -/
theorem disableLoop_fail (a b : Path) : ∀ (clock : List Nat) (err : Option Error) (w : World)
    (e : Error), (disableLoop a b clock err w).1 = some e →
    (disableLoop a b clock err w).2.fs = w.fs ∧
    (disableLoop a b clock err w).2.launched = w.launched ∧
    (disableLoop a b clock err w).2.logs = w.logs := by
  intro clock
  induction clock with
  | nil => intro err w e _; simp [disableLoop]
  | cons t ts ih =>
    intro err w e h
    simp only [disableLoop] at h ⊢
    split_ifs at h ⊢ with ht
    · cases hr : osRename w a b with
      | mk r w1 =>
        cases r with
        | none => simp [hr] at h
        | some e1 =>
          simp only [hr] at h ⊢
          obtain ⟨h1, h2, h3, _⟩ := osRename_fail w a b e1 w1 hr
          obtain ⟨i1, i2, i3⟩ := ih (some e1) w1 e h
          exact ⟨i1.trans h1, i2.trans h2, i3.trans h3⟩
    · exact ⟨rfl, rfl, rfl⟩

/-- A loop entered with an error already recorded that ends without error has renamed the
executable: the rename succeeds on the file system the loop started from, and its result is the
file system the loop leaves. -/
theorem disableLoop_attempted (a b : Path) : ∀ (ts : List Nat) (e0 : Error) (w : World),
    (disableLoop a b ts (some e0) w).1 = none →
    ∃ fs1 : FS, rename w.fs a b = .ok fs1 ∧ (disableLoop a b ts (some e0) w).2.fs = fs1 := by
  intro ts
  induction ts with
  | nil => intro e0 w h; simp [disableLoop] at h
  | cons t ts ih =>
    intro e0 w h
    simp only [disableLoop] at h ⊢
    split_ifs at h ⊢ with ht
    cases hr : osRename w a b with
    | mk r w1 =>
      cases r with
      | none =>
        simp only
        unfold osRename at hr
        split_ifs at hr
        · simp at hr
        · split at hr
          · simp at hr
          · rename_i fs1 hfs
            simp only [Prod.mk.injEq, true_and] at hr
            subst hr
            exact ⟨fs1, hfs, rfl⟩
      | some e1 =>
        simp only [hr] at h ⊢
        obtain ⟨h1, _, _, _⟩ := osRename_fail w a b e1 w1 hr
        obtain ⟨fs1, g1, g2⟩ := ih e1 w1 h
        exact ⟨fs1, by rw [← h1]; exact g1, g2⟩

/-- The abort path of `update`: when the loop ends with an error, `update` returns it, and the
file system and the list of started processes are as before the call. -/
theorem update_abort (w : World) (mainAppExe : Str) (baseDir next temp : Path) (e : Error)
    (hdirs : appDirs w.exe = .ok (baseDir, next, temp))
    (hfail : (disableLoop (join baseDir mainAppExe)
      (addSuffix (join baseDir mainAppExe) disabledSuffix) w.clock none
      (w.log (.text "Disable app"))).1 = some e) :
    (update w mainAppExe).1 = .err e ∧ (update w mainAppExe).2.fs = w.fs ∧
    (update w mainAppExe).2.launched = w.launched := by
  obtain ⟨h1, h2, _⟩ := disableLoop_fail _ _ _ _ _ e hfail
  cases hl : disableLoop (join baseDir mainAppExe)
      (addSuffix (join baseDir mainAppExe) disabledSuffix) w.clock none
      (w.log (.text "Disable app")) with
  | mk r w2 =>
    rw [hl] at hfail h1 h2
    simp only at hfail h1 h2
    subst hfail
    simp only [update, hdirs, log_clock, hl, log_fs, log_launched]
    exact ⟨trivial, by simpa using h1, by simpa using h2⟩
/-! ## The file system as a map -/

theorem lookup_filter (f : Path → Bool) (l : List (Path × Node)) (q : Path) :
    lookup (l.filter (fun e => f e.1)) q = if f q then lookup l q else none := by
  induction l with
  | nil => simp [lookup]
  | cons e rest ih =>
    obtain ⟨p, n⟩ := e
    by_cases hp : f p = true
    · simp only [List.filter_cons, hp, if_true, lookup]
      by_cases hq : p = q
      · subst hq; simp [hp]
      · simp [hq, ih]
    · simp only [List.filter_cons, hp, lookup]
      by_cases hq : p = q
      · subst hq; simp [ih, hp]
      · simp [hq, ih]

theorem lookup_isSome_iff (l : List (Path × Node)) (q : Path) :
    (lookup l q).isSome = true ↔ q ∈ l.map Prod.fst := by
  induction l with
  | nil => simp [lookup]
  | cons e rest ih =>
    obtain ⟨p, n⟩ := e
    by_cases hq : p = q
    · subst hq
      simp only [lookup, if_true, Option.isSome_some, List.map_cons, List.mem_cons, true_or]
    · have hq2 : ¬ q = p := fun h => hq h.symm
      simp only [lookup, hq, if_false, ih, List.map_cons, List.mem_cons, hq2, false_or]

@[simp] theorem get_nil (fs : FS) : fs.get [] = some .dir := by
  simp [FS.get]

theorem get_put (fs : FS) (p q : Path) (n : Node) :
    (fs.put p n).get q = if q = [] then some .dir else if q = p then some n else fs.get q := by
  by_cases hq : q = []
  · simp [FS.get, hq]
  · by_cases hqp : q = p
    · subst hqp
      simp [FS.get, FS.put, lookup, hq]
    · have hpq : ¬ p = q := fun h => hqp h.symm
      have := lookup_filter (fun x => decide (x ≠ p)) fs.entries q
      simp only [FS.get, FS.put, lookup, hq, hqp, hpq, if_false]
      rw [this]
      simp [hqp]

theorem get_del (fs : FS) (p q : Path) :
    (fs.del p).get q = if q = [] then some .dir else if q = p then none else fs.get q := by
  by_cases hq : q = []
  · simp [FS.get, hq]
  · have := lookup_filter (fun x => decide (x ≠ p)) fs.entries q
    simp only [FS.get, FS.del, hq, if_false]
    rw [this]
    by_cases hqp : q = p <;> simp [hqp]

@[simp] theorem put_locked (fs : FS) (p : Path) (n : Node) : (fs.put p n).locked = fs.locked := rfl

@[simp] theorem del_locked (fs : FS) (p : Path) : (fs.del p).locked = fs.locked := rfl

theorem blocked_of_no_lock (fs : FS) (h : fs.locked = []) (q : Path) : fs.blocked q = false := by
  simp [FS.blocked, h]

theorem removeAll_no_lock (fs : FS) (h : fs.locked = []) (p : Path) :
    (removeAll fs p).1 = none ∧ (removeAll fs p).2.locked = [] ∧
    ∀ q, (removeAll fs p).2.get q =
      if q = [] then some .dir else if p <+: q then none else fs.get q := by
  refine ⟨by simp [removeAll, blocked_of_no_lock fs h], by simp [removeAll, h], ?_⟩
  intro q
  by_cases hq : q = []
  · simp [FS.get, hq]
  · have := lookup_filter (fun x => !(p.isPrefixOf x)) fs.entries q
    simp only [removeAll, FS.get, hq, if_false, blocked_of_no_lock fs h, Bool.or_false]
    rw [this]
    by_cases hp : p <+: q
    · simp [hp, List.isPrefixOf_iff_prefix.mpr hp]
    · have : p.isPrefixOf q = false := by
        rw [Bool.eq_false_iff]
        intro hh
        exact hp (List.isPrefixOf_iff_prefix.mp hh)
      simp [hp, this]

/-- The outcome of `writeFile` when nothing is locked. -/
theorem writeFile_ok (fs : FS) (p : Path) (data : Bytes) (hlock : fs.locked = [])
    (hnd : fs.get p ≠ some .dir) (hpar : fs.get p.dropLast = some .dir) :
    writeFile fs p data = .ok (fs.put p (.file data)) := by
  simp [writeFile, hlock, hnd, hpar]

/-- Whatever `writeFile` does, it changes at most the path written, and only to a file. -/
theorem writeFile_get (fs fs1 : FS) (p : Path) (data : Bytes)
    (h : writeFile fs p data = .ok fs1) :
    fs1.locked = fs.locked ∧ p ≠ [] ∧ fs.get p ≠ some .dir ∧
    ∀ q, fs1.get q = if q = p then some (.file data) else fs.get q := by
  unfold writeFile at h
  split_ifs at h with h1 h2 h3
  simp only [Except.ok.injEq] at h
  subst h
  have hp : p ≠ [] := by
    intro hp
    subst hp
    simp at h2
  refine ⟨rfl, hp, h2, ?_⟩
  intro q
  rw [get_put]
  by_cases hq : q = []
  · subst hq
    have : ¬ ([] : Path) = p := fun h => hp h.symm
    simp [this]
  · simp [hq]
/-! ## The walk -/

theorem mem_insertPath (p x : Path) (l : List Path) : x ∈ insertPath p l ↔ x = p ∨ x ∈ l := by
  induction l with
  | nil => simp [insertPath]
  | cons q qs ih =>
    simp only [insertPath]
    split_ifs with h1 h2
    · subst h1
      simp
    · simp
    · simp only [List.mem_cons, ih]
      tauto

theorem mem_sortPaths (x : Path) (l : List Path) : x ∈ sortPaths l ↔ x ∈ l := by
  induction l with
  | nil => simp [sortPaths]
  | cons q qs ih =>
    have : sortPaths (q :: qs) = insertPath q (sortPaths qs) := rfl
    rw [this, mem_insertPath, ih]
    simp

theorem get_isSome_of_mem (fs : FS) (p : Path) (h : p ∈ fs.entries.map Prod.fst) :
    (fs.get p).isSome = true := by
  unfold FS.get
  split_ifs
  · rfl
  · exact (lookup_isSome_iff _ _).mpr h

theorem mem_of_get_isSome (fs : FS) (p : Path) (hp : p ≠ []) (h : (fs.get p).isSome = true) :
    p ∈ fs.entries.map Prod.fst := by
  unfold FS.get at h
  rw [if_neg hp] at h
  exact (lookup_isSome_iff _ _).mp h

/-- What `walk` visits: exactly the existing paths at or below the root, each flagged as a
directory or not according to the file system. -/
theorem walk_spec (fs : FS) (root : Path) (l : List (Path × Bool)) (h : walk fs root = some l) :
    (∀ p d, (p, d) ∈ l →
      root <+: p ∧ (fs.get p).isSome = true ∧ d = decide (fs.get p = some .dir)) ∧
    (∀ p, root <+: p → (fs.get p).isSome = true → (p, decide (fs.get p = some .dir)) ∈ l) := by
  unfold walk at h
  split at h
  · simp at h
  · rename_i n hn
    simp only [Option.some.injEq] at h
    subst h
    constructor
    · intro p d hmem
      simp only [List.mem_cons, Prod.mk.injEq, List.mem_map, mem_sortPaths, List.mem_filter,
        Bool.and_eq_true, decide_eq_true_eq] at hmem
      rcases hmem with ⟨rfl, rfl⟩ | ⟨x, ⟨hx, hpre, hne⟩, rfl, rfl⟩
      · refine ⟨List.prefix_refl _, by simp [hn], ?_⟩
        simp [hn]
      · exact ⟨List.isPrefixOf_iff_prefix.mp hpre, get_isSome_of_mem fs _ (List.mem_map.mpr hx), rfl⟩
    · intro p hpre hsome
      by_cases hpr : p = root
      · subst hpr
        simp [hn]
      · have hp : p ≠ [] := by
          intro hp
          subst hp
          exact hpr (List.prefix_nil.mp hpre).symm
        simp only [List.mem_cons, Prod.mk.injEq, List.mem_map, mem_sortPaths, List.mem_filter,
          Bool.and_eq_true, decide_eq_true_eq]
        right
        exact ⟨p, ⟨List.mem_map.mp (mem_of_get_isSome fs p hp hsome), List.isPrefixOf_iff_prefix.mpr hpre, hpr⟩,
          rfl, rfl⟩

theorem walk_isSome (fs : FS) (root : Path) (n : Node) (h : fs.get root = some n) :
    ∃ l, walk fs root = some l := by
  simp [walk, h]
/-! ## The copy phase of `syncDirs` -/

theorem eq_append_drop_of_isPrefix {src p : Path} (h : src <+: p) :
    p = src ++ p.drop src.length := (List.prefix_iff_eq_append.mp h).symm

theorem ne_of_disjoint_roots {src dst p : Path} (r : Path)
    (h1 : ¬ src <+: dst) (h2 : ¬ dst <+: src) (hp : src <+: p) : p ≠ dst ++ r := by
  intro h
  have hd : dst <+: p := h ▸ List.prefix_append dst r
  rcases List.prefix_or_prefix_of_prefix hp hd with h | h
  · exact h1 h
  · exact h2 h

theorem copyFile_ok (fs : FS) (p t : Path) (data : Bytes) (hlock : fs.locked = [])
    (hp : fs.get p = some (.file data)) (hnd : fs.get t ≠ some .dir)
    (hpar : fs.get t.dropLast = some .dir) :
    copyFile fs p t = .ok (fs.put t (.file data)) := by
  simp [copyFile, readFile, hp, writeFile_ok fs t data hlock hnd hpar]

/-- The copy phase when nothing is locked and every file of the walk can be written at its
destination: no error is recorded, every destination holds the content of its source, and
every other path is as before. -/
theorem copyPhase_spec (src dst : Path) (h1 : ¬ src <+: dst) (h2 : ¬ dst <+: src) :
    ∀ (l : List (Path × Bool)) (w : World) (e : Option Error),
    w.fs.locked = [] →
    (∀ p, (p, false) ∈ l → ∃ data, w.fs.get p = some (.file data) ∧ src <+: p ∧
      w.fs.get (dst ++ p.drop src.length) ≠ some .dir ∧
      w.fs.get (dst ++ p.drop src.length).dropLast = some .dir) →
    (copyPhase src dst l w e).2 = e ∧
    (copyPhase src dst l w e).1.fs.locked = [] ∧
    (∀ q, (copyPhase src dst l w e).1.fs.get q = w.fs.get q ∨
      ∃ p, (p, false) ∈ l ∧ q = dst ++ p.drop src.length ∧
        (copyPhase src dst l w e).1.fs.get q = w.fs.get p) ∧
    (∀ p, (p, false) ∈ l →
      (copyPhase src dst l w e).1.fs.get (dst ++ p.drop src.length) = w.fs.get p) := by
  intro l
  induction l with
  | nil =>
    intro w e hlock _
    simp [copyPhase, hlock]
  | cons x rest ih =>
    intro w e hlock hgood
    obtain ⟨p, d⟩ := x
    cases d with
    | true =>
      have hgood1 : ∀ p1, (p1, false) ∈ rest → ∃ data, w.fs.get p1 = some (.file data) ∧
          src <+: p1 ∧ w.fs.get (dst ++ p1.drop src.length) ≠ some .dir ∧
          w.fs.get (dst ++ p1.drop src.length).dropLast = some .dir :=
        fun p1 hp1 => hgood p1 (List.mem_cons_of_mem _ hp1)
      obtain ⟨i1, i2, i3, i4⟩ := ih w e hlock hgood1
      simp only [copyPhase, if_true]
      refine ⟨i1, i2, ?_, ?_⟩
      · intro q
        rcases i3 q with h | ⟨p1, hp1, hq, hv⟩
        · exact Or.inl h
        · exact Or.inr ⟨p1, List.mem_cons_of_mem _ hp1, hq, hv⟩
      · intro p1 hp1
        simp only [List.mem_cons, Prod.mk.injEq, Bool.false_eq_true, and_false, false_or] at hp1
        exact i4 p1 hp1
    | false =>
      obtain ⟨data, hp, hpre, hnd, hpar⟩ := hgood p (List.mem_cons_self _ _)
      have hcopy := copyFile_ok w.fs p (dst ++ p.drop src.length) data hlock hp hnd hpar
      have ht : dst ++ p.drop src.length ≠ [] := by
        intro ht
        rw [ht] at hnd
        simp at hnd
      have hget : ∀ q, (w.fs.put (dst ++ p.drop src.length) (.file data)).get q =
          if q = dst ++ p.drop src.length then some (.file data) else w.fs.get q := by
        intro q
        rw [get_put]
        by_cases hq : q = []
        · subst hq
          have : ¬ ([] : Path) = dst ++ p.drop src.length := fun h => ht h.symm
          simp [this]
        · simp [hq]
      have hsrc_same : ∀ p1, src <+: p1 →
          (w.fs.put (dst ++ p.drop src.length) (.file data)).get p1 = w.fs.get p1 := by
        intro p1 hp1
        rw [hget, if_neg (ne_of_disjoint_roots _ h1 h2 hp1)]
      have hgood1 : ∀ p1, (p1, false) ∈ rest → ∃ data1,
          (w.fs.put (dst ++ p.drop src.length) (.file data)).get p1 = some (.file data1) ∧
          src <+: p1 ∧
          (w.fs.put (dst ++ p.drop src.length) (.file data)).get (dst ++ p1.drop src.length) ≠
            some .dir ∧
          (w.fs.put (dst ++ p.drop src.length) (.file data)).get
            (dst ++ p1.drop src.length).dropLast = some .dir := by
        intro p1 hp1
        obtain ⟨data1, g1, g2, g3, g4⟩ := hgood p1 (List.mem_cons_of_mem _ hp1)
        refine ⟨data1, by rw [hsrc_same p1 g2]; exact g1, g2, ?_, ?_⟩
        · rw [hget]
          split_ifs
          · simp
          · exact g3
        · rw [hget]
          split_ifs with hq
          · rw [hq] at g4
            exact absurd g4 hnd
          · exact g4
      obtain ⟨i1, i2, i3, i4⟩ := ih ((w.log (.copy p (dst ++ p.drop src.length))).setFS
        (w.fs.put (dst ++ p.drop src.length) (.file data))) e (by simpa using hlock)
        (by simpa using hgood1)
      simp only [copyPhase, Bool.false_eq_true, if_false, log_fs, hcopy]
      simp only [setFS_fs] at i3 i4
      have hhead : ∀ q, (w.fs.put (dst ++ p.drop src.length) (.file data)).get q = w.fs.get q ∨
          (q = dst ++ p.drop src.length ∧
            (w.fs.put (dst ++ p.drop src.length) (.file data)).get q = w.fs.get p) := by
        intro q
        rw [hget]
        split_ifs with hq
        · exact Or.inr ⟨hq, hp.symm⟩
        · exact Or.inl rfl
      refine ⟨i1, i2, ?_, ?_⟩
      · intro q
        rcases i3 q with h | ⟨p1, hp1, hq, hv⟩
        · rcases hhead q with h3 | ⟨h3, h4⟩
          · exact Or.inl (h.trans h3)
          · exact Or.inr ⟨p, List.mem_cons_self _ _, h3, h.trans h4⟩
        · refine Or.inr ⟨p1, List.mem_cons_of_mem _ hp1, hq, hv.trans ?_⟩
          obtain ⟨_, _, g2, _, _⟩ := hgood p1 (List.mem_cons_of_mem _ hp1)
          exact hsrc_same p1 g2
      · intro p1 hp1
        simp only [List.mem_cons, Prod.mk.injEq, and_true] at hp1
        rcases hp1 with rfl | hp1
        · rcases i3 (dst ++ p1.drop src.length) with h | ⟨p2, hp2, hq, hv⟩
          · rw [h, hget, if_pos rfl, hp]
          · obtain ⟨_, _, g2, _, _⟩ := hgood p2 (List.mem_cons_of_mem _ hp2)
            have hpp : p1 = p2 := by
              rw [eq_append_drop_of_isPrefix hpre, eq_append_drop_of_isPrefix g2,
                List.append_cancel_left hq]
            rw [hv, hsrc_same p2 g2, hpp]
        · obtain ⟨_, _, g2, _, _⟩ := hgood p1 (List.mem_cons_of_mem _ hp1)
          rw [i4 p1 hp1, hsrc_same p1 g2]
/-! ## The delete phase of `syncDirs` -/

theorem remove_file (fs : FS) (p : Path) (data : Bytes) (hlock : fs.locked = [])
    (hp : fs.get p = some (.file data)) : remove fs p = .ok (fs.del p) := by
  simp [remove, hlock, hp]

theorem remove_missing (fs : FS) (p : Path) (hp : fs.get p = none) :
    remove fs p = .error (.io .remove p) := by
  unfold remove
  rw [hp]
  split_ifs <;> rfl

/-- The delete phase when nothing is locked: no error is recorded, every file of the walk that
has nothing at the same relative path below `src` is gone, and every other path is as before. -/
theorem deletePhase_spec (src dst : Path) (h1 : ¬ src <+: dst) (h2 : ¬ dst <+: src) :
    ∀ (l : List (Path × Bool)) (w : World),
    w.fs.locked = [] →
    (∀ p, (p, false) ∈ l → dst <+: p ∧
      (w.fs.get p = none ∨ ∃ data, w.fs.get p = some (.file data))) →
    (deletePhase src dst l w none).2 = none ∧
    (deletePhase src dst l w none).1.fs.locked = [] ∧
    (∀ q, (q, false) ∈ l → w.fs.get (src ++ q.drop dst.length) = none →
      (deletePhase src dst l w none).1.fs.get q = none) ∧
    (∀ q, ¬ ((q, false) ∈ l ∧ w.fs.get (src ++ q.drop dst.length) = none) →
      (deletePhase src dst l w none).1.fs.get q = w.fs.get q) := by
  intro l
  induction l with
  | nil =>
    intro w hlock _
    simp [deletePhase, hlock]
  | cons x rest ih =>
    intro w hlock hl
    obtain ⟨p, d⟩ := x
    have hl1 : ∀ p1, (p1, false) ∈ rest → dst <+: p1 ∧
        (w.fs.get p1 = none ∨ ∃ data, w.fs.get p1 = some (.file data)) :=
      fun p1 hp1 => hl p1 (List.mem_cons_of_mem _ hp1)
    cases d with
    | true =>
      obtain ⟨i1, i2, i3, i4⟩ := ih w hlock hl1
      simp only [deletePhase, if_true]
      refine ⟨i1, i2, ?_, ?_⟩
      · intro q hq hs
        simp only [List.mem_cons, Prod.mk.injEq, Bool.false_eq_true, and_false, false_or] at hq
        exact i3 q hq hs
      · intro q hq
        apply i4
        intro ⟨hq1, hq2⟩
        exact hq ⟨List.mem_cons_of_mem _ hq1, hq2⟩
    | false =>
      by_cases hs : (w.fs.get (src ++ p.drop dst.length)).isSome = true
      · obtain ⟨i1, i2, i3, i4⟩ := ih w hlock hl1
        simp only [deletePhase, Bool.false_eq_true, if_false, hs, if_true]
        refine ⟨i1, i2, ?_, ?_⟩
        · intro q hq hstale
          simp only [List.mem_cons, Prod.mk.injEq, and_true] at hq
          rcases hq with rfl | hq
          · rw [hstale] at hs
            simp at hs
          · exact i3 q hq hstale
        · intro q hq
          apply i4
          intro ⟨hq1, hq2⟩
          exact hq ⟨List.mem_cons_of_mem _ hq1, hq2⟩
      · have hstale : w.fs.get (src ++ p.drop dst.length) = none := by
          cases hg : w.fs.get (src ++ p.drop dst.length) with
          | none => rfl
          | some n => rw [hg] at hs; simp at hs
        obtain ⟨hpre, hp⟩ := hl p (List.mem_cons_self _ _)
        -- the world after the removal attempt
        have key : ∃ w2 : World, w2.fs.locked = [] ∧
            (∀ q, w2.fs.get q = if q = p then none else w.fs.get q) ∧
            deletePhase src dst ((p, false) :: rest) w none = deletePhase src dst rest w2 none := by
          rcases hp with hp | ⟨data, hp⟩
          · refine ⟨w.log (.delete (src ++ p.drop dst.length)), by simpa using hlock, ?_, ?_⟩
            · intro q
              split_ifs with hq
              · rw [hq]; simpa using hp
              · simp
            · simp [deletePhase, hs, remove_missing w.fs p hp]
          · have hpne : p ≠ [] := by
              intro h
              rw [h] at hp
              simp at hp
            refine ⟨(w.log (.delete (src ++ p.drop dst.length))).setFS (w.fs.del p),
              by simpa using hlock, ?_, ?_⟩
            · intro q
              simp only [setFS_fs]
              rw [get_del]
              by_cases hq : q = []
              · subst hq
                have : ¬ ([] : Path) = p := fun h => hpne h.symm
                simp [this]
              · simp [hq]
            · simp [deletePhase, hs, remove_file w.fs p data hlock hp]
        obtain ⟨w2, k1, k2, k3⟩ := key
        have hsrc_same : ∀ p1, dst <+: p1 →
            w2.fs.get (src ++ p1.drop dst.length) = w.fs.get (src ++ p1.drop dst.length) := by
          intro p1 _
          rw [k2, if_neg]
          intro h
          exact ne_of_disjoint_roots (p.drop dst.length) h1 h2
            (List.prefix_append src (p1.drop dst.length))
            (h.trans (eq_append_drop_of_isPrefix hpre))
        have hl2 : ∀ p1, (p1, false) ∈ rest → dst <+: p1 ∧
            (w2.fs.get p1 = none ∨ ∃ data, w2.fs.get p1 = some (.file data)) := by
          intro p1 hp1
          obtain ⟨g1, g2⟩ := hl1 p1 hp1
          refine ⟨g1, ?_⟩
          rw [k2]
          split_ifs
          · exact Or.inl rfl
          · exact g2
        obtain ⟨i1, i2, i3, i4⟩ := ih w2 k1 hl2
        rw [k3]
        refine ⟨i1, i2, ?_, ?_⟩
        · intro q hq hq2
          simp only [List.mem_cons, Prod.mk.injEq, and_true] at hq
          by_cases hqr : (q, false) ∈ rest
          · exact i3 q hqr (by rw [hsrc_same q (hl1 q hqr).1]; exact hq2)
          · rcases hq with rfl | hq
            · rw [i4 q (fun h => hqr h.1), k2, if_pos rfl]
            · exact absurd hq hqr
        · intro q hq
          have hqp : q ≠ p := by
            intro h
            subst h
            exact hq ⟨List.mem_cons_self _ _, hstale⟩
          rw [i4 q, k2, if_neg hqp]
          intro ⟨hq1, hq2⟩
          apply hq
          refine ⟨List.mem_cons_of_mem _ hq1, ?_⟩
          rw [← hsrc_same q (hl1 q hq1).1]
          exact hq2

/-! ## Convergence of `syncDirs` -/

theorem get_file_of_not_dir (fs : FS) (p : Path) (hs : (fs.get p).isSome = true)
    (hd : false = decide (fs.get p = some .dir)) : ∃ data, fs.get p = some (.file data) := by
  cases hg : fs.get p with
  | none => rw [hg] at hs; simp at hs
  | some n =>
    cases n with
    | file data => exact ⟨data, rfl⟩
    | dir => rw [hg] at hd; simp at hd


/-- A property of every file below `root` follows from its check on the entries of the file
system. -/
theorem forall_files_of_entries (fs : FS) (root : Path) (Q : Path → Prop)
    (h : ∀ e ∈ fs.entries, root <+: e.1 → fs.get e.1 ≠ some .dir → Q (e.1.drop root.length)) :
    ∀ r data, fs.get (root ++ r) = some (.file data) → Q r := by
  intro r data hr
  have hne : root ++ r ≠ [] := by
    intro hnil
    rw [hnil] at hr
    simp at hr
  have hmem := mem_of_get_isSome fs (root ++ r) hne (by simp [hr])
  obtain ⟨e, he, heq⟩ := List.mem_map.mp hmem
  have := h e he (heq ▸ List.prefix_append root r) (by rw [heq, hr]; simp)
  rw [heq, List.drop_left] at this
  exact this
/-! ## Joining names -/

theorem splitSep_plain (s : Str) (h : ∀ c ∈ s, isSep c = false) : splitSep s = [s] := by
  induction s with
  | nil => rfl
  | cons c cs ih =>
    have hc : isSep c = false := h c (List.mem_cons_self _ _)
    have := ih (fun x hx => h x (List.mem_cons_of_mem _ hx))
    simp [splitSep, hc, this]

theorem join_plain (d : Path) (name : Str) (h : isPlainName name = true) :
    join d name = d ++ [name] := by
  simp only [isPlainName, Bool.and_eq_true, decide_eq_true_eq, List.all_eq_true,
    Bool.not_eq_true'] at h
  obtain ⟨⟨⟨h1, h2⟩, h3⟩, h4⟩ := h
  simp [join, splitSep_plain name h4, cleanStep, h1, h2, h3]

theorem splitSep_append (sfx : Str) (hs : ∀ c ∈ sfx, isSep c = false) (s : Str) :
    ∃ init last, splitSep s = init ++ [last] ∧ splitSep (s ++ sfx) = init ++ [last ++ sfx] := by
  induction s with
  | nil => exact ⟨[], [], rfl, by simpa using splitSep_plain sfx hs⟩
  | cons c cs ih =>
    obtain ⟨init, last, e1, e2⟩ := ih
    by_cases hc : isSep c = true
    · exact ⟨[] :: init, last, by simp [splitSep, hc, e1], by simp [splitSep, hc, e2]⟩
    · cases init with
      | nil =>
        refine ⟨[], c :: last, ?_, ?_⟩
        · simp only [List.nil_append] at e1
          simp [splitSep, hc, e1]
        · simp only [List.nil_append] at e2
          simp [splitSep, hc, e2]
      | cons x xs =>
        refine ⟨(c :: x) :: xs, last, ?_, ?_⟩
        · simp only [List.cons_append] at e1
          simp [splitSep, hc, e1]
        · simp only [List.cons_append] at e2
          simp [splitSep, hc, e2]

/-- The staged and the working-copy directory are siblings whose names differ only in the
suffix. -/
theorem triad_shape (twoUp : Path) (final : Str) :
    ∃ (X : Path) (c : Str), (triad twoUp final).2.1 = X ++ [c ++ nextSuffix] ∧
      (triad twoUp final).2.2 = X ++ [c ++ tempSuffix] := by
  obtain ⟨i1, l1, a1, a2⟩ := splitSep_append nextSuffix (by decide) final
  obtain ⟨i2, l2, b1, b2⟩ := splitSep_append tempSuffix (by decide) final
  have hil : i1 = i2 ∧ l1 = l2 := by
    have := a1.symm.trans b1
    exact ⟨List.append_inj_left' this rfl, by simpa using List.append_inj_right' this rfl⟩
  obtain ⟨rfl, rfl⟩ := hil
  refine ⟨i1.foldl cleanStep twoUp, l1, ?_, ?_⟩
  · have hlen : 5 ≤ (l1 ++ nextSuffix).length := by simp [nextSuffix]
    have n1 : l1 ++ nextSuffix ≠ [] := by intro h; rw [h] at hlen; simp at hlen
    have n2 : l1 ++ nextSuffix ≠ ['.'] := by intro h; rw [h] at hlen; simp at hlen
    have n3 : l1 ++ nextSuffix ≠ ['.', '.'] := by intro h; rw [h] at hlen; simp at hlen
    simp only [triad, join, a2, List.foldl_append, List.foldl_cons, List.foldl_nil, cleanStep]
    rw [if_neg (by simp [n1, n2]), if_neg n3]
  · have hlen : 5 ≤ (l1 ++ tempSuffix).length := by simp [tempSuffix]
    have n1 : l1 ++ tempSuffix ≠ [] := by intro h; rw [h] at hlen; simp at hlen
    have n2 : l1 ++ tempSuffix ≠ ['.'] := by intro h; rw [h] at hlen; simp at hlen
    have n3 : l1 ++ tempSuffix ≠ ['.', '.'] := by intro h; rw [h] at hlen; simp at hlen
    simp only [triad, join, b2, List.foldl_append, List.foldl_cons, List.foldl_nil, cleanStep]
    rw [if_neg (by simp [n1, n2]), if_neg n3]

theorem appDirs_shape (exe : Option Path) (baseDir nextDir tempDir : Path)
    (h : appDirs exe = .ok (baseDir, nextDir, tempDir)) :
    ∃ (X : Path) (c : Str), nextDir = X ++ [c ++ nextSuffix] ∧ tempDir = X ++ [c ++ tempSuffix] := by
  have key : ∃ twoUp final, (baseDir, nextDir, tempDir) = triad twoUp final := by
    unfold appDirs at h
    split at h
    · simp at h
    · simp only at h
      split_ifs at h
      · split at h
        · simp at h
        · simp only [Res.ok.injEq] at h
          exact ⟨_, _, h.symm⟩
      · split at h
        · simp at h
        · simp only [Res.ok.injEq] at h
          exact ⟨_, _, h.symm⟩
      · simp only [Res.ok.injEq] at h
        exact ⟨_, _, h.symm⟩
  obtain ⟨twoUp, final, hk⟩ := key
  obtain ⟨X, c, e1, e2⟩ := triad_shape twoUp final
  rw [← hk] at e1 e2
  exact ⟨X, c, e1, e2⟩
/-! ## Staging: what cannot appear -/

theorem removeAll_get_none (fs : FS) (p q : Path) (h : fs.get q = none) :
    (removeAll fs p).2.get q = none := by
  have hq : q ≠ [] := by
    intro hq
    rw [hq] at h
    simp at h
  have hl : lookup fs.entries q = none := by simpa [FS.get, hq] using h
  have := lookup_filter (fun x => !(p.isPrefixOf x) || fs.blocked x) fs.entries q
  simp only [removeAll, FS.get, hq, if_false]
  rw [this, hl]
  simp

theorem mkdirAllRev_frame (fs : FS) : ∀ (rp : List Str) (fs1 : FS),
    mkdirAllRev fs rp = .ok fs1 →
    fs1.locked = fs.locked ∧ ∀ q, ¬ q <+: rp.reverse → fs1.get q = fs.get q := by
  intro rp
  induction rp with
  | nil =>
    intro fs1 h
    simp only [mkdirAllRev, Except.ok.injEq] at h
    subst h
    exact ⟨rfl, fun _ _ => rfl⟩
  | cons name up ih =>
    intro fs1 h
    simp only [mkdirAllRev] at h
    split at h
    · simp only [Except.ok.injEq] at h
      subst h
      exact ⟨rfl, fun _ _ => rfl⟩
    · simp at h
    · split at h
      · simp at h
      · rename_i fs2 h2
        simp only [Except.ok.injEq] at h
        subst h
        obtain ⟨i1, i2⟩ := ih fs2 h2
        refine ⟨i1, ?_⟩
        intro q hq
        have hqp : q ≠ (name :: up).reverse := fun e => hq (e ▸ List.prefix_refl _)
        have hqp2 : q ≠ up.reverse ++ [name] := by simpa using hqp
        have hqu : ¬ q <+: up.reverse := by
          intro hpre
          apply hq
          rw [List.reverse_cons]
          exact hpre.trans (List.prefix_append _ _)
        rw [get_put, i2 q hqu]
        by_cases hq0 : q = []
        · subst hq0; simp
        · simp [hq0, hqp2]

theorem mkdirAll_frame (fs fs1 : FS) (p : Path) (h : mkdirAll fs p = .ok fs1) :
    fs1.locked = fs.locked ∧ ∀ q, ¬ q <+: p → fs1.get q = fs.get q := by
  have := mkdirAllRev_frame fs p.reverse fs1 h
  simpa using this

theorem extract_frame (nextDir : Path) (q : Path) : ∀ (files : List ZipEntry) (fs : FS),
    (∀ f ∈ files, join nextDir f.name ≠ q) →
    (extract nextDir files fs).2.get q = fs.get q := by
  intro files
  induction files with
  | nil => intro fs _; rfl
  | cons f rest ih =>
    intro fs hq
    have hf : q ≠ join nextDir f.name := fun e => hq f (List.mem_cons_self _ _) e.symm
    simp only [extract]
    cases hw : writeFile fs (join nextDir f.name) [] with
    | error e => rfl
    | ok fs1 =>
      obtain ⟨_, _, _, hg⟩ := writeFile_get fs fs1 _ _ hw
      cases hd : f.data with
      | none => simp only [hg q, if_neg hf]
      | some d =>
        simp only
        rw [ih _ (fun f1 hf1 => hq f1 (List.mem_cons_of_mem _ hf1)), get_put, hg q]
        by_cases hq0 : q = []
        · subst hq0; simp
        · simp [hq0, hf]

theorem copyFile_get (fs fs1 : FS) (a b : Path) (h : copyFile fs a b = .ok fs1) :
    ∃ data, fs.get a = some (.file data) ∧ fs1.locked = fs.locked ∧
      ∀ q, fs1.get q = if q = b then some (.file data) else fs.get q := by
  unfold copyFile at h
  split at h
  · simp at h
  · rename_i data hr
    obtain ⟨g1, _, _, g2⟩ := writeFile_get fs fs1 b data h
    refine ⟨data, ?_, g1, g2⟩
    unfold readFile at hr
    split at hr
    · simp only [Except.ok.injEq] at hr
      subst hr
      assumption
    · simp at hr

theorem join_readyName (d : Path) : join d readyName = d ++ [readyName] :=
  join_plain d readyName (by decide)

theorem join_markerName (d : Path) : join d markerName = d ++ [markerName] :=
  join_plain d markerName (by decide)

theorem join_exeName (d : Path) : join d exeName = d ++ [exeName] :=
  join_plain d exeName (by decide)

/-- When `stage` returns an error and no entry of the archive is extracted to the path of the
Ready Marker, a Ready Marker that was absent is still absent. -/
theorem stage_err_no_ready (L : Lib) (w5 : World) (nextDir tempDir : Path) (Z h : Bytes)
    (e : Error) (X : Path) (c : Str)
    (hn : nextDir = X ++ [c ++ nextSuffix]) (ht : tempDir = X ++ [c ++ tempSuffix])
    (hready : w5.fs.get (join nextDir readyName) = none)
    (hnames : ∀ files, L.unzip Z = some files →
      ∀ f ∈ files, join nextDir f.name ≠ join nextDir readyName)
    (herr : (stage L w5 nextDir tempDir Z h).1 = .err e) :
    (stage L w5 nextDir tempDir Z h).2.fs.get (join nextDir readyName) = none := by
  have hlen : nextDir.length = tempDir.length := by rw [hn, ht]; simp
  have hR1 : ¬ join nextDir readyName <+: nextDir := by
    intro hp
    have := hp.length_le
    rw [join_readyName] at this
    simp at this
  have hR2 : ¬ join nextDir readyName <+: tempDir := by
    intro hp
    have := hp.length_le
    rw [join_readyName] at this
    simp at this
    omega
  have hM : join nextDir readyName ≠ join nextDir markerName := by
    rw [join_readyName, join_markerName]
    intro h
    have := List.append_cancel_left h
    revert this
    decide
  have hT : join nextDir readyName ≠ join tempDir exeName := by
    rw [join_readyName, join_exeName]
    intro h
    have := List.append_inj_right' h rfl
    revert this
    decide
  unfold stage at herr ⊢
  simp only [log_fs] at herr ⊢
  cases h1 : removeAll w5.fs nextDir with
  | mk r1 fs1 =>
    have g1 : fs1.get (join nextDir readyName) = none := by
      have := removeAll_get_none w5.fs nextDir _ hready
      rw [h1] at this
      exact this
    rw [h1] at herr
    cases r1 with
    | some e1 => simpa using g1
    | none =>
      simp only at herr ⊢
      cases h2 : removeAll fs1 tempDir with
      | mk r2 fs2 =>
        have g2 : fs2.get (join nextDir readyName) = none := by
          have := removeAll_get_none fs1 tempDir _ g1
          rw [h2] at this
          exact this
        rw [h2] at herr
        cases r2 with
        | some e2 => simpa using g2
        | none =>
          simp only at herr ⊢
          cases h3 : mkdirAll fs2 nextDir with
          | error e3 => simpa using g2
          | ok fs3 =>
            have g3 : fs3.get (join nextDir readyName) = none := by
              rw [(mkdirAll_frame fs2 fs3 nextDir h3).2 _ hR1]
              exact g2
            rw [h3] at herr
            simp only at herr ⊢
            cases h4 : mkdirAll fs3 tempDir with
            | error e4 => simpa using g3
            | ok fs4 =>
              have g4 : fs4.get (join nextDir readyName) = none := by
                rw [(mkdirAll_frame fs3 fs4 tempDir h4).2 _ hR2]
                exact g3
              rw [h4] at herr
              simp only at herr ⊢
              cases h5 : L.unzip Z with
              | none => simpa using g4
              | some files =>
                rw [h5] at herr
                simp only at herr ⊢
                have g5 := extract_frame nextDir (join nextDir readyName) files fs4
                  (hnames files h5)
                rw [g4] at g5
                cases h6 : extract nextDir files fs4 with
                | mk r6 fs5 =>
                  rw [h6] at herr g5
                  simp only at g5
                  cases r6 with
                  | some e6 => simpa using g5
                  | none =>
                    simp only at herr ⊢
                    cases h7 : writeFile fs5 (join nextDir markerName) (hexEncode h) with
                    | error e7 => simpa using g5
                    | ok fs6 =>
                      have g6 : fs6.get (join nextDir readyName) = none := by
                        rw [(writeFile_get fs5 fs6 _ _ h7).2.2.2, if_neg hM]
                        exact g5
                      rw [h7] at herr
                      simp only at herr ⊢
                      cases h8 : copyFile fs6 (join nextDir exeName) (join tempDir exeName) with
                      | error e8 => simpa using g6
                      | ok fs7 =>
                        obtain ⟨_, _, _, c3⟩ := copyFile_get fs6 fs7 _ _ h8
                        have g7 : fs7.get (join nextDir readyName) = none := by
                          rw [c3, if_neg hT]
                          exact g6
                        rw [h8] at herr
                        simp only at herr ⊢
                        cases h9 : writeFile fs7 (join nextDir readyName) [] with
                        | error e9 => simpa using g7
                        | ok fs8 =>
                          rw [h9] at herr
                          simp at herr
/-! ## Staging: the successful run -/

theorem mkdirAll_of_parent (fs : FS) (X : Path) (name : Str)
    (hX : fs.get X = some .dir) (hp : fs.get (X ++ [name]) = none) :
    mkdirAll fs (X ++ [name]) = .ok (fs.put (X ++ [name]) .dir) := by
  have hrev : (X ++ [name]).reverse = name :: X.reverse := by simp
  have hback : (name :: X.reverse).reverse = X ++ [name] := by simp
  have hparent : mkdirAllRev fs X.reverse = .ok fs := by
    cases hx : X.reverse with
    | nil => rfl
    | cons a as =>
      have : (a :: as).reverse = X := by rw [← hx]; simp
      simp only [mkdirAllRev, this, hX]
  simp only [mkdirAll, hrev, mkdirAllRev, hback, hp, hparent]

theorem put_file_get (fs : FS) (t q : Path) (n : Node) (ht : t ≠ []) :
    (fs.put t n).get q = if q = t then some n else fs.get q := by
  rw [get_put]
  by_cases hq : q = []
  · subst hq
    have : ¬ ([] : Path) = t := fun h => ht h.symm
    simp [this]
  · simp [hq]

/-- Extraction of plain, readable entries into an existing directory that holds no
subdirectory: it succeeds, every entry ends up as a file, and every other path is as before. -/
theorem extract_ok (nextDir : Path) : ∀ (files : List ZipEntry) (fs : FS),
    fs.locked = [] → fs.get nextDir = some .dir →
    (∀ name, fs.get (nextDir ++ [name]) ≠ some .dir) →
    (∀ f ∈ files, isPlainName f.name = true ∧ f.data.isSome = true) →
    (extract nextDir files fs).1 = none ∧
    (extract nextDir files fs).2.locked = [] ∧
    (∀ q, (extract nextDir files fs).2.get q = fs.get q ∨
      ∃ f ∈ files, q = nextDir ++ [f.name] ∧
        ∃ d, (extract nextDir files fs).2.get q = some (.file d)) ∧
    (∀ f ∈ files, ∃ d, (extract nextDir files fs).2.get (nextDir ++ [f.name]) =
      some (.file d)) := by
  intro files
  induction files with
  | nil =>
    intro fs hlock _ _ _
    simp [extract, hlock]
  | cons f rest ih =>
    intro fs hlock hdir hnd hvalid
    obtain ⟨hplain, hdata⟩ := hvalid f (List.mem_cons_self _ _)
    obtain ⟨d, hd⟩ := Option.isSome_iff_exists.mp hdata
    have ht : nextDir ++ [f.name] ≠ [] := by simp
    have hw : writeFile fs (nextDir ++ [f.name]) [] =
        .ok (fs.put (nextDir ++ [f.name]) (.file [])) :=
      writeFile_ok fs _ _ hlock (hnd f.name) (by simpa using hdir)
    have hg : ∀ q, ((fs.put (nextDir ++ [f.name]) (.file [])).put (nextDir ++ [f.name])
        (.file d)).get q = if q = nextDir ++ [f.name] then some (.file d) else fs.get q := by
      intro q
      rw [put_file_get _ _ _ _ ht, put_file_get _ _ _ _ ht]
      split_ifs <;> rfl
    have hstep : extract nextDir (f :: rest) fs = extract nextDir rest
        ((fs.put (nextDir ++ [f.name]) (.file [])).put (nextDir ++ [f.name]) (.file d)) := by
      simp only [extract, join_plain nextDir f.name hplain, hw, hd]
    have hne : nextDir ≠ nextDir ++ [f.name] := by
      intro h
      have := congrArg List.length h
      simp at this
    obtain ⟨i1, i2, i3, i4⟩ := ih
      ((fs.put (nextDir ++ [f.name]) (.file [])).put (nextDir ++ [f.name]) (.file d))
      (by simpa using hlock)
      (by rw [hg, if_neg hne]; exact hdir)
      (by
        intro name
        rw [hg]
        split_ifs
        · simp
        · exact hnd name)
      (fun f1 hf1 => hvalid f1 (List.mem_cons_of_mem _ hf1))
    rw [hstep]
    refine ⟨i1, i2, ?_, ?_⟩
    · intro q
      rcases i3 q with h | ⟨f1, hf1, hq, hv⟩
      · by_cases hqt : q = nextDir ++ [f.name]
        · right
          refine ⟨f, List.mem_cons_self _ _, hqt, d, ?_⟩
          rw [h, hg, if_pos hqt]
        · left
          rw [h, hg, if_neg hqt]
      · exact Or.inr ⟨f1, List.mem_cons_of_mem _ hf1, hq, hv⟩
    · intro f1 hf1
      simp only [List.mem_cons] at hf1
      rcases hf1 with rfl | hf1
      · rcases i3 (nextDir ++ [f1.name]) with h | ⟨_, _, _, hv⟩
        · exact ⟨d, by rw [h, hg, if_pos rfl]⟩
        · exact hv
      · exact i4 f1 hf1

theorem sibling_ne (X : Path) (c : Str) : X ++ [c ++ nextSuffix] ≠ X ++ [c ++ tempSuffix] := by
  intro h
  have h1 := List.append_cancel_left h
  simp only [List.cons.injEq, and_true] at h1
  have h2 := List.append_cancel_left h1
  revert h2
  decide

theorem not_prefix_of_longer {p q : Path} (h : q.length < p.length) : ¬ p <+: q := by
  intro hp
  have := hp.length_le
  omega

theorem child_ne_of_sibling {a b : Path} (hab : a ≠ b) (hlen : a.length = b.length)
    (x y : Str) : a ++ [x] ≠ b ++ [y] := by
  intro h
  exact hab (List.append_inj_left h hlen)

/-- The successful run of `stage`: with nothing locked, the parent directory present, and an
archive of plain readable entries one of which is `winupdate.exe`, `stage` returns success and
leaves the Ready Marker and the hash marker in the staged directory. -/
theorem stage_ok (L : Lib) (w5 : World) (nextDir tempDir : Path) (Z h : Bytes)
    (files : List ZipEntry) (X : Path) (c : Str)
    (hn : nextDir = X ++ [c ++ nextSuffix]) (ht : tempDir = X ++ [c ++ tempSuffix])
    (hlock : w5.fs.locked = []) (hX : w5.fs.get X = some .dir)
    (hunzip : L.unzip Z = some files)
    (hvalid : ∀ f ∈ files, isPlainName f.name = true ∧ f.data.isSome = true)
    (hexe : ∃ f ∈ files, f.name = exeName) :
    (stage L w5 nextDir tempDir Z h).1 = .ok () ∧
    (stage L w5 nextDir tempDir Z h).2.fs.get (join nextDir readyName) = some (.file []) ∧
    (stage L w5 nextDir tempDir Z h).2.fs.get (join nextDir markerName) =
      some (.file (hexEncode h)) := by
  have hlen : nextDir.length = tempDir.length := by rw [hn, ht]; simp
  have hnt : nextDir ≠ tempDir := by rw [hn, ht]; exact sibling_ne X c
  have hn0 : nextDir ≠ [] := by rw [hn]; simp
  have ht0 : tempDir ≠ [] := by rw [ht]; simp
  have hXn : ¬ nextDir <+: X := not_prefix_of_longer (by rw [hn]; simp)
  have hXt : ¬ tempDir <+: X := not_prefix_of_longer (by rw [ht]; simp)
  have htn : ¬ nextDir <+: tempDir := by
    intro hp
    exact hnt (List.IsPrefix.eq_of_length hp hlen)
  have hnt2 : ¬ tempDir <+: nextDir := by
    intro hp
    exact hnt (List.IsPrefix.eq_of_length hp hlen.symm).symm
  -- the two removals
  obtain ⟨a1, a2, a3⟩ := removeAll_no_lock w5.fs hlock nextDir
  cases hA : removeAll w5.fs nextDir with
  | mk rA fsA =>
  rw [hA] at a1 a2 a3
  simp only at a1 a2 a3
  subst a1
  obtain ⟨b1, b2, b3⟩ := removeAll_no_lock fsA a2 tempDir
  cases hB : removeAll fsA tempDir with
  | mk rB fsB =>
  rw [hB] at b1 b2 b3
  simp only at b1 b2 b3
  subst b1
  have hBX : fsB.get X = some .dir := by
    rw [b3, a3]
    by_cases hx : X = []
    · simp [hx]
    · simp [hx, hXn, hXt, hX]
  have hBn : ∀ q, nextDir <+: q → fsB.get q = none := by
    intro q hq
    have hq0 : q ≠ [] := fun e => hn0 (List.prefix_nil.mp (e ▸ hq))
    rw [b3, a3]
    simp [hq0, hq]
  have hBt : ∀ q, tempDir <+: q → fsB.get q = none := by
    intro q hq
    have hq0 : q ≠ [] := fun e => ht0 (List.prefix_nil.mp (e ▸ hq))
    rw [b3]
    simp [hq0, hq]
  -- the two directories are made
  have hC : mkdirAll fsB nextDir = .ok (fsB.put nextDir .dir) := by
    rw [hn]
    exact mkdirAll_of_parent fsB X _ hBX (by rw [← hn]; exact hBn _ (List.prefix_refl _))
  have hCg : ∀ q, (fsB.put nextDir .dir).get q = if q = nextDir then some .dir else fsB.get q :=
    fun q => put_file_get fsB nextDir q .dir hn0
  have hXne : X ≠ nextDir := by
    intro e
    have := congrArg List.length e
    rw [hn] at this
    simp at this
  have hXte : X ≠ tempDir := by
    intro e
    have := congrArg List.length e
    rw [ht] at this
    simp at this
  have hD : mkdirAll (fsB.put nextDir .dir) tempDir =
      .ok ((fsB.put nextDir .dir).put tempDir .dir) := by
    rw [ht]
    apply mkdirAll_of_parent
    · rw [hCg, if_neg hXne]; exact hBX
    · rw [← ht, hCg, if_neg hnt.symm]
      exact hBt _ (List.prefix_refl _)
  have hDg : ∀ q, ((fsB.put nextDir .dir).put tempDir .dir).get q =
      if q = tempDir then some .dir else if q = nextDir then some .dir else fsB.get q := by
    intro q
    rw [put_file_get _ tempDir q .dir ht0, hCg]
  have hnc : ∀ name, nextDir ++ [name] ≠ nextDir ∧ nextDir ++ [name] ≠ tempDir := by
    intro name
    constructor
    · intro e
      have := congrArg List.length e
      simp at this
    · intro e
      have := congrArg List.length e
      simp at this
      omega
  have htc : ∀ name, tempDir ++ [name] ≠ nextDir ∧ tempDir ++ [name] ≠ tempDir := by
    intro name
    constructor
    · intro e
      have := congrArg List.length e
      simp at this
      omega
    · intro e
      have := congrArg List.length e
      simp at this
  -- the extraction
  obtain ⟨e1, e2, e3, e4⟩ := extract_ok nextDir files ((fsB.put nextDir .dir).put tempDir .dir)
    (by simpa using b2)
    (by rw [hDg, if_neg hnt, if_pos rfl])
    (by
      intro name
      rw [hDg, if_neg (hnc name).2, if_neg (hnc name).1, hBn _ (List.prefix_append _ _)]
      simp)
    hvalid
  cases hE : extract nextDir files ((fsB.put nextDir .dir).put tempDir .dir) with
  | mk rE fsE =>
  rw [hE] at e1 e2 e3 e4
  simp only at e1 e2 e3 e4
  subst e1
  have hEn : fsE.get nextDir = some .dir := by
    rcases e3 nextDir with h | ⟨f, _, hq, _⟩
    · rw [h, hDg, if_neg hnt, if_pos rfl]
    · exact absurd hq.symm (hnc f.name).1
  have hEt : fsE.get tempDir = some .dir := by
    rcases e3 tempDir with h | ⟨f, _, hq, _⟩
    · rw [h, hDg, if_pos rfl]
    · exact absurd hq.symm (hnc f.name).2
  have hEnd : ∀ name, fsE.get (nextDir ++ [name]) ≠ some .dir := by
    intro name
    rcases e3 (nextDir ++ [name]) with h | ⟨_, _, _, d, hv⟩
    · rw [h, hDg, if_neg (hnc name).2, if_neg (hnc name).1, hBn _ (List.prefix_append _ _)]
      simp
    · rw [hv]
      simp
  have hET : fsE.get (tempDir ++ [exeName]) = none := by
    rcases e3 (tempDir ++ [exeName]) with h | ⟨f, _, hq, _⟩
    · rw [h, hDg, if_neg (htc exeName).2, if_neg (htc exeName).1]
      exact hBt _ (List.prefix_append _ _)
    · exact absurd hq (child_ne_of_sibling hnt.symm hlen.symm _ _)
  obtain ⟨fexe, hfexe, hname⟩ := hexe
  obtain ⟨d0, hd0⟩ := e4 fexe hfexe
  rw [hname] at hd0
  -- the hash marker
  have hF : writeFile fsE (nextDir ++ [markerName]) (hexEncode h) =
      .ok (fsE.put (nextDir ++ [markerName]) (.file (hexEncode h))) :=
    writeFile_ok fsE _ _ e2 (hEnd markerName) (by simpa using hEn)
  have hFg : ∀ q, (fsE.put (nextDir ++ [markerName]) (.file (hexEncode h))).get q =
      if q = nextDir ++ [markerName] then some (.file (hexEncode h)) else fsE.get q :=
    fun q => put_file_get fsE _ q _ (by simp)
  have hexeMarker : nextDir ++ [exeName] ≠ nextDir ++ [markerName] := by
    intro e
    have := List.append_cancel_left e
    revert this
    decide
  have hreadyMarker : nextDir ++ [readyName] ≠ nextDir ++ [markerName] := by
    intro e
    have := List.append_cancel_left e
    revert this
    decide
  have hTM : tempDir ++ [exeName] ≠ nextDir ++ [markerName] :=
    child_ne_of_sibling hnt.symm hlen.symm _ _
  -- the copy of the updater
  have hG : copyFile (fsE.put (nextDir ++ [markerName]) (.file (hexEncode h)))
      (nextDir ++ [exeName]) (tempDir ++ [exeName]) =
      .ok ((fsE.put (nextDir ++ [markerName]) (.file (hexEncode h))).put
        (tempDir ++ [exeName]) (.file d0)) := by
    apply copyFile_ok
    · simpa using e2
    · rw [hFg, if_neg hexeMarker]; exact hd0
    · rw [hFg, if_neg hTM, hET]; simp
    · rw [List.dropLast_concat, hFg, if_neg]
      · exact hEt
      · intro e
        exact (hnc markerName).2 e.symm
  have hGg : ∀ q, ((fsE.put (nextDir ++ [markerName]) (.file (hexEncode h))).put
      (tempDir ++ [exeName]) (.file d0)).get q =
      if q = tempDir ++ [exeName] then some (.file d0)
      else if q = nextDir ++ [markerName] then some (.file (hexEncode h)) else fsE.get q := by
    intro q
    rw [put_file_get _ _ q _ (by simp), hFg]
  have hRT : nextDir ++ [readyName] ≠ tempDir ++ [exeName] :=
    child_ne_of_sibling hnt hlen _ _
  -- the Ready Marker
  have hH : writeFile ((fsE.put (nextDir ++ [markerName]) (.file (hexEncode h))).put
      (tempDir ++ [exeName]) (.file d0)) (nextDir ++ [readyName]) [] =
      .ok (((fsE.put (nextDir ++ [markerName]) (.file (hexEncode h))).put
        (tempDir ++ [exeName]) (.file d0)).put (nextDir ++ [readyName]) (.file [])) := by
    apply writeFile_ok
    · simpa using e2
    · rw [hGg, if_neg hRT, if_neg hreadyMarker]
      exact hEnd readyName
    · rw [List.dropLast_concat, hGg, if_neg, if_neg]
      · exact hEn
      · intro e
        exact (hnc markerName).1 e.symm
      · intro e
        exact (htc exeName).1 e.symm
  simp only [stage, log_fs, hA, hB, hC, hD, hunzip, hE, join_markerName, join_exeName,
    join_readyName, hF, hG, hH, setFS_fs, true_and]
  constructor
  · rw [put_file_get _ _ _ _ (by simp), if_pos rfl]
  · rw [put_file_get _ _ _ _ (by simp), if_neg hreadyMarker.symm, hGg, if_neg hTM.symm,
      if_pos rfl]
/-! ## From the accepted hash to `stage` -/

/-- When the hash is not the installed one and the archive `A` received has it and decompresses
to `Z`, `downloadWithHash` is `stage` run on an unchanged file system. -/
theorem downloadWithHash_eq_stage (L : Lib) (w1 : World) (zipUrl : Str)
    (baseDir nextDir tempDir : Path) (h A Z : Bytes)
    (c1 : hashIsCurrent w1.fs baseDir h = false) (h3 : w1.net zipUrl = some A)
    (c2 : h.length = 32) (c3 : h = L.sha256 A) (h4 : decompress L zipUrl A = some Z) :
    ∃ w5 : World, w5.fs = w1.fs ∧
      downloadWithHash L w1 zipUrl baseDir nextDir tempDir h =
        stage L w5 nextDir tempDir Z h := by
  have c3n : ¬ h ≠ L.sha256 A := by simpa using c3
  refine ⟨(if decide (lastIndex zipUrl bz2Suffix = (zipUrl.length : Int) - 4) = true then
      ((((w1.log (.text "Checking whether hash is new")).log
        (.text "Download archive")).request zipUrl).log (.text "Verify hash")).log
        (.text "Decompress bzip2")
    else (((w1.log (.text "Checking whether hash is new")).log
        (.text "Download archive")).request zipUrl).log (.text "Verify hash")), ?_, ?_⟩
  · split_ifs <;> rfl
  · simp only [downloadWithHash, log_fs, request_fs, c1, log_net, request_net, h3, c2, h4]
    rw [if_neg (by simp), if_neg (by simp), if_neg c3n]

/-- The part of `downloadWithHash` before `stage`: either it returns an error without touching
the file system, or the archive `A` was received, has the accepted hash, was decompressed to `Z`
and `stage` runs on an unchanged file system. -/
theorem downloadWithHash_cases (L : Lib) (w1 : World) (zipUrl : Str)
    (baseDir nextDir tempDir : Path) (h : Bytes) :
    ((∃ e, (downloadWithHash L w1 zipUrl baseDir nextDir tempDir h).1 = .err e) ∧
      (downloadWithHash L w1 zipUrl baseDir nextDir tempDir h).2.fs = w1.fs) ∨
    (∃ (A Z : Bytes) (w5 : World), w1.net zipUrl = some A ∧ decompress L zipUrl A = some Z ∧
      w5.fs = w1.fs ∧
      downloadWithHash L w1 zipUrl baseDir nextDir tempDir h =
        stage L w5 nextDir tempDir Z h) := by
  by_cases c1 : hashIsCurrent w1.fs baseDir h = true
  · left
    simp [downloadWithHash, c1]
  · have c1f : hashIsCurrent w1.fs baseDir h = false := by simpa using c1
    cases h3 : w1.net zipUrl with
    | none =>
      left
      simp [downloadWithHash, c1f, h3]
    | some A =>
      by_cases c2 : h.length = 32
      · by_cases c3 : h = L.sha256 A
        · cases h4 : decompress L zipUrl A with
          | none =>
            left
            have c3n : ¬ h ≠ L.sha256 A := by simpa using c3
            simp only [downloadWithHash, log_fs, request_fs, c1f, log_net, request_net, h3, c2,
              h4]
            rw [if_neg (by simp), if_neg (by simp), if_neg c3n]
            refine ⟨⟨_, rfl⟩, ?_⟩
            split_ifs <;> rfl
          | some Z =>
            right
            obtain ⟨w5, e1, e2⟩ := downloadWithHash_eq_stage L w1 zipUrl baseDir nextDir tempDir
              h A Z c1f h3 c2 c3 h4
            exact ⟨A, Z, w5, rfl, h4, e1, e2⟩
        · left
          have c3p : h ≠ L.sha256 A := c3
          simp only [downloadWithHash, log_fs, request_fs, c1f, log_net, request_net, h3, c2]
          rw [if_neg (by simp), if_neg (by simp), if_pos c3p]
          exact ⟨⟨_, rfl⟩, rfl⟩
      · left
        have c2p : h.length ≠ 32 := c2
        simp only [downloadWithHash, log_fs, request_fs, c1f, log_net, request_net, h3]
        rw [if_neg (by simp), if_pos c2p]
        exact ⟨⟨_, rfl⟩, rfl⟩
/-- The claim of C4 under the extra condition that the loop makes at least one attempt (the
first reading of the clock is below the timeout): either the rename of the live executable
succeeds, or `update` returns an error and the file system and the started processes are as
before. -/
theorem update_abort_when_attempted (w : World) (mainAppExe : Str) (baseDir next temp : Path)
    (t : Nat) (ts : List Nat)
    (hdirs : appDirs w.exe = .ok (baseDir, next, temp))
    (hclock : w.clock = t :: ts) (ht : t < updateTimeout) :
    (∃ fs1 : FS, rename w.fs (join baseDir mainAppExe)
      (addSuffix (join baseDir mainAppExe) disabledSuffix) = .ok fs1) ∨
    ((∃ e, (update w mainAppExe).1 = .err e) ∧ (update w mainAppExe).2.fs = w.fs ∧
      (update w mainAppExe).2.launched = w.launched) := by
  cases hl : (disableLoop (join baseDir mainAppExe)
      (addSuffix (join baseDir mainAppExe) disabledSuffix) w.clock none
      (w.log (.text "Disable app"))).1 with
  | some e =>
    right
    obtain ⟨u1, u2, u3⟩ := update_abort w mainAppExe baseDir next temp e hdirs hl
    exact ⟨⟨e, u1⟩, u2, u3⟩
  | none =>
    left
    rw [hclock] at hl
    simp only [disableLoop, ht, if_true] at hl
    cases hr : osRename (w.log (.text "Disable app")) (join baseDir mainAppExe)
        (addSuffix (join baseDir mainAppExe) disabledSuffix) with
    | mk r w1 =>
      rw [hr] at hl
      cases r with
      | none =>
        unfold osRename at hr
        split_ifs at hr
        · simp at hr
        · split at hr
          · simp at hr
          · rename_i fs1 hfs
            exact ⟨fs1, by simpa using hfs⟩
      | some e1 =>
        simp only at hl
        obtain ⟨h1, _, _, _⟩ := osRename_fail _ _ _ e1 w1 hr
        obtain ⟨fs1, g1, _⟩ := disableLoop_attempted _ _ ts e1 w1 hl
        exact ⟨fs1, by rw [h1] at g1; simpa using g1⟩

/-! ## The claims -/

/-- C1: in a run of `download` that requested the archive, where the hash resource was accepted
as the 32-byte hash `h` and the SHA-256 of the archive bytes received differs from `h`, `download`
returns the error "Hash mismatch" and the file system is what it was before the call: the staged
and working-copy directories are neither deleted nor recreated nor written to, and no Ready
Marker is written. -/
theorem download_hash_mismatch_leaves_fs (L : Lib) (w : World) (zipUrl : Str) (b h A : Bytes)
    (hhash : w.net (zipUrl ++ hashSuffix) = some b)
    (hacc : acceptHash b = .ok h)
    (harch : w.net zipUrl = some A)
    (hreq : zipUrl ∈ (download L w zipUrl).2.requests.drop w.requests.length)
    (hmis : L.sha256 A ≠ h) :
    (download L w zipUrl).1 = .err .hashMismatch ∧ (download L w zipUrl).2.fs = w.fs := by
  have hurl := url_ne_hashUrl zipUrl
  cases hr : isReadyForUpdate w with
  | none => simp [download, hr] at hreq
  | some r =>
    cases r with
    | true => simp [download, hr] at hreq
    | false =>
      cases hd : appDirs w.exe with
      | panic => simp [download, hr, hd] at hreq
      | err e => simp [download, hr, hd] at hreq
      | ok d =>
        obtain ⟨baseDir, nextDir, tempDir⟩ := d
        have hready : w.fs.get (join nextDir readyName) = none := by
          simpa [isReadyForUpdate, hd] using hr
        rw [download_eq_withHash L w zipUrl b h baseDir nextDir tempDir hd hready hhash hacc]
          at hreq ⊢
        by_cases hcur : hashIsCurrent w.fs baseDir h = true
        · simp [downloadWithHash, hcur, hurl] at hreq
        · have hcur2 : hashIsCurrent w.fs baseDir h = false := by simpa using hcur
          have := downloadWithHash_mismatch L
            ((w.log (.text "Download hash")).request (zipUrl ++ hashSuffix)) zipUrl h A
            baseDir nextDir tempDir (acceptHash_length b h hacc) (by simpa using hcur2)
            (by simpa using harch) hmis
          simpa using this

/-- Witness of C1: a server publishing 32 bytes `05` for an archive whose digest is 32 bytes
`02`. -/
theorem download_hash_mismatch_leaves_fs_witness :
    (download (toyLib []) mismatchWorld exUrl).1 = .err .hashMismatch ∧
    (download (toyLib []) mismatchWorld exUrl).2.fs = mismatchWorld.fs :=
  download_hash_mismatch_leaves_fs (toyLib []) mismatchWorld exUrl (List.replicate 32 5)
    (List.replicate 32 5) exArchive (by decide) rfl (by decide) (by decide) (by decide)

/-- C2: for a hash-resource body `b` fetched by `download` (directories resolved, no Ready
Marker): if `b` has at least 64 bytes and its first 64 bytes are hexadecimal digits, `download`
continues with the 32 bytes `h` those digits encode (the hexadecimal encoding of `h` is the 64
digits in lower case), whatever follows them; if `b` has exactly 32 bytes, `download` continues
with `b` itself; for every other body `download` returns the format error carrying the length of
`b`, having requested only the hash resource and changed nothing in the file system. -/
theorem download_accepts_hash_resource (L : Lib) (w : World) (zipUrl : Str) (b : Bytes)
    (baseDir nextDir tempDir : Path)
    (hdirs : appDirs w.exe = .ok (baseDir, nextDir, tempDir))
    (hready : w.fs.get (join nextDir readyName) = none)
    (hnet : w.net (zipUrl ++ hashSuffix) = some b) :
    (64 ≤ b.length → (∀ c ∈ b.take 64, isHexDigit c = true) →
      ∃ h : Bytes, h.length = 32 ∧ hexEncode h = (b.take 64).map lowerHex ∧
        acceptHash b = .ok h ∧
        download L w zipUrl =
          downloadWithHash L ((w.log (.text "Download hash")).request (zipUrl ++ hashSuffix))
            zipUrl baseDir nextDir tempDir h) ∧
    (b.length = 32 →
      acceptHash b = .ok b ∧
      download L w zipUrl =
        downloadWithHash L ((w.log (.text "Download hash")).request (zipUrl ++ hashSuffix))
          zipUrl baseDir nextDir tempDir b) ∧
    (¬ (64 ≤ b.length ∧ ∀ c ∈ b.take 64, isHexDigit c = true) → b.length ≠ 32 →
      (download L w zipUrl).1 = .err (.serverHashLength b.length) ∧
      (download L w zipUrl).2.requests = w.requests ++ [zipUrl ++ hashSuffix] ∧
      (download L w zipUrl).2.fs = w.fs) := by
  refine ⟨?_, ?_, ?_⟩
  · intro hlen hhex
    have htake : (b.take 64).length = 2 * 32 := by simp; omega
    obtain ⟨h1, h2⟩ := hexDecode_encode 32 (b.take 64) htake hhex
    have hacc : acceptHash b = .ok (hexDecode (b.take 64)) := by
      simp [acceptHash, hashCandidate, hlen, h1]
    exact ⟨_, h1, h2, hacc,
      download_eq_withHash L w zipUrl b _ baseDir nextDir tempDir hdirs hready hnet hacc⟩
  · intro hlen
    have hacc : acceptHash b = .ok b := by
      simp [acceptHash, hashCandidate, hlen]
    exact ⟨hacc, download_eq_withHash L w zipUrl b _ baseDir nextDir tempDir hdirs hready hnet hacc⟩
  · intro hnot hlen
    have hcand : hashCandidate b = b := by
      unfold hashCandidate
      split_ifs with h64 h32
      · exfalso
        apply hnot
        refine ⟨h64, hexDecode_full _ ?_⟩
        have : (b.take 64).length = 64 := by simp; omega
        omega
      · rfl
      · rfl
    have hacc : acceptHash b = .error (.serverHashLength b.length) := by
      simp [acceptHash, hcand, hlen]
    simp [download, isReadyForUpdate, hdirs, hready, hnet, hacc]

/-- Witness of C2: a hash resource of 40 bytes that are not hexadecimal digits. -/
theorem download_accepts_hash_resource_witness :
    (download (toyLib []) badHashWorld exUrl).1 = .err (.serverHashLength 40) ∧
    (download (toyLib []) badHashWorld exUrl).2.requests = [exUrl ++ hashSuffix] ∧
    (download (toyLib []) badHashWorld exUrl).2.fs = badHashWorld.fs :=
  (download_accepts_hash_resource (toyLib []) badHashWorld exUrl (List.replicate 40 5)
    (mkPath ["Acme", "Widget"]) (mkPath ["Acme", "Widget-next"]) (mkPath ["Acme", "Widget-temp"])
    (by decide) (by decide) (by decide)).2.2 (by decide) (by decide)

/-- C9, as stated, fails: with a Ready Marker in the staged directory `download`
returns success (nil), not the no-update-available result, although the installed marker holds
the hexadecimal encoding of the published hash. -/
theorem download_current_hash_counterexample :
    (currentReadyWorld.net (exUrl ++ hashSuffix) = some exHash ∧
      acceptHash exHash = .ok exHash ∧
      readFile currentReadyWorld.fs (join (mkPath ["Acme", "Widget"]) markerName) =
        .ok (hexEncode exHash) ∧
      (download (toyLib []) currentReadyWorld exUrl).1 = .ok ()) ∧
    ¬ (∀ (L : Lib) (w : World) (zipUrl : Str) (b h : Bytes) (baseDir nextDir tempDir : Path),
      appDirs w.exe = .ok (baseDir, nextDir, tempDir) →
      w.net (zipUrl ++ hashSuffix) = some b →
      acceptHash b = .ok h →
      readFile w.fs (join baseDir markerName) = .ok (hexEncode h) →
      (download L w zipUrl).1 = .err .noUpdateAvailable) := by
  refine ⟨by decide, ?_⟩
  intro hall
  have := hall (toyLib []) currentReadyWorld exUrl exHash exHash
    (mkPath ["Acme", "Widget"]) (mkPath ["Acme", "Widget-next"]) (mkPath ["Acme", "Widget-temp"])
    (by decide) (by decide) rfl rfl
  revert this
  decide

/-- C9, amended: when no Ready Marker is present in the staged directory and the Archive Hash
Marker inside the installed directory holds the 64-character hexadecimal encoding of the
published hash, `download` requests only the hash resource (never the archive), leaves the file
system as it was and returns the no-update-available result. -/
theorem download_current_hash_short_circuit (L : Lib) (w : World) (zipUrl : Str) (b h : Bytes)
    (baseDir nextDir tempDir : Path)
    (hdirs : appDirs w.exe = .ok (baseDir, nextDir, tempDir))
    (hready : w.fs.get (join nextDir readyName) = none)
    (hnet : w.net (zipUrl ++ hashSuffix) = some b)
    (hacc : acceptHash b = .ok h)
    (hmarker : readFile w.fs (join baseDir markerName) = .ok (hexEncode h)) :
    (download L w zipUrl).1 = .err .noUpdateAvailable ∧
    (download L w zipUrl).2.requests = w.requests ++ [zipUrl ++ hashSuffix] ∧
    (download L w zipUrl).2.fs = w.fs := by
  have hcur := hashIsCurrent_of_marker w.fs baseDir h (acceptHash_length b h hacc) hmarker
  rw [download_eq_withHash L w zipUrl b h baseDir nextDir tempDir hdirs hready hnet hacc]
  simp [downloadWithHash, hcur]

/-- Witness of C9 (amended): the installed version is the published one and nothing is staged. -/
theorem download_current_hash_short_circuit_witness :
    (download (toyLib []) currentWorld exUrl).1 = .err .noUpdateAvailable ∧
    (download (toyLib []) currentWorld exUrl).2.requests = [exUrl ++ hashSuffix] ∧
    (download (toyLib []) currentWorld exUrl).2.fs = currentWorld.fs :=
  download_current_hash_short_circuit (toyLib []) currentWorld exUrl exHash exHash
    (mkPath ["Acme", "Widget"]) (mkPath ["Acme", "Widget-next"]) (mkPath ["Acme", "Widget-temp"])
    (by decide) (by decide) (by decide) rfl rfl

/-- C4: the code breaks the claim when the loop of `update` makes no attempt. In `lateWorld` the
first reading of the clock is past the timeout, so the loop body never runs and `err` keeps the
nil of `appDirs`: although the rename cannot succeed (the host holds `widget.exe`) and never
happened (no `.disabled` file), `update` goes on to `syncDirs`, which copies `data.bin` into the
installed directory, and starts a process. -/
theorem update_without_attempt_syncs :
    rename lateWorld.fs (mkPath ["Acme", "Widget", "widget.exe"])
      (mkPath ["Acme", "Widget", "widget.exe.disabled"]) =
        .error (.io .rename (mkPath ["Acme", "Widget", "widget.exe"])) ∧
    (update lateWorld "widget.exe".toList).1 =
      .err (.io .write (mkPath ["Acme", "Widget", "widget.exe"])) ∧
    (update lateWorld "widget.exe".toList).2.fs.get
      (mkPath ["Acme", "Widget", "widget.exe.disabled"]) = none ∧
    lateWorld.fs.get (mkPath ["Acme", "Widget", "data.bin"]) = none ∧
    (update lateWorld "widget.exe".toList).2.fs.get (mkPath ["Acme", "Widget", "data.bin"]) =
      some (.file (ascii "data-2")) ∧
    (update lateWorld "widget.exe".toList).2.launched =
      [mkPath ["Acme", "Widget", "widget.exe"]] := by
  decide

/-- C5: the code breaks the claim for an updater located in the staged directory. From
`Widget` and from `Widget-temp` the three directories are those of `Acme/Widget`; from
`Widget-next` seven characters are cut instead of five, which gives the directories and the
identity of `Acme/Widg`; and from `W-next` the slice is out of range. -/
theorem appDirs_next_cuts_seven :
    appDirs (some (profileExe "Widget")) = .ok (triad profileParent "Widget".toList) ∧
    appDirs (some (profileExe "Widget-temp")) = .ok (triad profileParent "Widget".toList) ∧
    appDirs (some (profileExe "Widget-next")) = .ok (triad profileParent "Widg".toList) ∧
    appID (some (profileExe "Widget")) = .ok ("Acme".toList ++ Char.ofNat 92 :: "Widget".toList) ∧
    appID (some (profileExe "Widget-next")) =
      .ok ("Acme".toList ++ Char.ofNat 92 :: "Widg".toList) ∧
    appDirs (some (profileExe "W-next")) = .panic ∧
    appID (some (profileExe "W-next")) = .panic := by
  refine ⟨?_, ?_, ?_, ?_, ?_, ?_, ?_⟩ <;> decide

/-- C6: the code breaks the claim when a deletion fails. With the stale destination file
locked by another process, its removal fails and `syncDirs` still returns success, the file
being left in place; with the destination file `a` locked as well, the copy is the first
operation to fail and `syncDirs` returns the error of the removal, which failed later. -/
theorem syncDirs_drops_delete_error :
    (syncDirs staleLockedWorld (mkPath ["S"]) (mkPath ["D"])).1 = .ok () ∧
    (syncDirs staleLockedWorld (mkPath ["S"]) (mkPath ["D"])).2.logs =
      [.copy (mkPath ["S", "a"]) (mkPath ["D", "a"]), .delete (mkPath ["S", "stale"])] ∧
    (syncDirs staleLockedWorld (mkPath ["S"]) (mkPath ["D"])).2.fs.get (mkPath ["D", "stale"]) =
      some (.file (ascii "gone")) ∧
    copyFile bothLockedWorld.fs (mkPath ["S", "a"]) (mkPath ["D", "a"]) =
      .error (.io .write (mkPath ["D", "a"])) ∧
    (syncDirs bothLockedWorld (mkPath ["S"]) (mkPath ["D"])).1 =
      .err (.io .remove (mkPath ["D", "stale"])) := by
  decide

/-- C10, as stated, fails: an `update` that returns an error (the rename of the
live executable fails until the timeout) is followed by exit status 0. -/
theorem main_error_exit_counterexample :
    ((update (busyWorld.log (.text "-- update")) "widget.exe".toList).1 =
        .err (.io .rename (mkPath ["Acme", "Widget", "widget.exe"])) ∧
      (main (toyLib []) busyWorld [[], updateVerb, "widget.exe".toList]).1 = 0 ∧
      LogMsg.error (.io .rename (mkPath ["Acme", "Widget", "widget.exe"])) ∈
        (main (toyLib []) busyWorld [[], updateVerb, "widget.exe".toList]).2.logs) ∧
    ¬ (∀ (L : Lib) (w : World) (prog arg self : Str) (e : Error),
      appID w.exe = .ok self →
      (update (w.log (.text "-- update")) arg).1 = .err e →
      (main L w [prog, updateVerb, arg]).1 ≠ 0) := by
  refine ⟨by decide, ?_⟩
  intro hall
  exact hall (toyLib []) busyWorld [] "widget.exe".toList
    ("cme".toList ++ Char.ofNat 92 :: "Widget".toList)
    (.io .rename (mkPath ["Acme", "Widget", "widget.exe"])) (by decide) (by decide) (by decide)

/-- C10, amended: for an invocation `update <exe>` or `download <location>` that gets past
the instance guard, an error returned by the operation, other than the no-update-available
result, is appended to the log and `main` returns, so the exit status is 0; the
no-update-available result is not logged and the exit status is 0 as well. -/
theorem main_logs_error_and_exits_zero (L : Lib) (w : World) (prog arg self : Str)
    (hid : appID w.exe = .ok self)
    (hguard : w.mutexHeld (lockName self) = false) :
    (∀ e, (update (w.log (.text "-- update")) arg).1 = .err e →
      main L w [prog, updateVerb, arg] =
        (0, (update (w.log (.text "-- update")) arg).2.log (.error e))) ∧
    (∀ e, (download L (w.log (.text "-- download")) arg).1 = .err e → e ≠ .noUpdateAvailable →
      main L w [prog, downloadVerb, arg] =
        (0, (download L (w.log (.text "-- download")) arg).2.log (.error e))) ∧
    ((download L (w.log (.text "-- download")) arg).1 = .err .noUpdateAvailable →
      main L w [prog, downloadVerb, arg] =
        (0, (download L (w.log (.text "-- download")) arg).2)) := by
  have hne : downloadVerb ≠ updateVerb := by decide
  refine ⟨?_, ?_, ?_⟩
  · intro e he
    cases hu : update (w.log (.text "-- update")) arg with
    | mk r w1 =>
      rw [hu] at he
      simp only at he
      subst he
      simp [main, hid, hguard, hu]
  · intro e he hne2
    cases hu : download L (w.log (.text "-- download")) arg with
    | mk r w1 =>
      rw [hu] at he
      simp only at he
      subst he
      simp [main, hid, hguard, hu, hne, hne2]
  · intro he
    cases hu : download L (w.log (.text "-- download")) arg with
    | mk r w1 =>
      rw [hu] at he
      simp only at he
      subst he
      simp [main, hid, hguard, hu, hne]

/-- Witness of C10 (amended): the hash mismatch of `mismatchWorld` is logged and the exit status
is 0. -/
theorem main_logs_error_and_exits_zero_witness :
    main (toyLib []) mismatchWorld [[], downloadVerb, exUrl] =
      (0, (download (toyLib []) (mismatchWorld.log (.text "-- download")) exUrl).2.log
        (.error .hashMismatch)) :=
  (main_logs_error_and_exits_zero (toyLib []) mismatchWorld [] exUrl
    ("cme".toList ++ Char.ofNat 92 :: "Widget".toList) (by decide) (by decide)).2.1
    .hashMismatch (by decide) (by decide)

/-- C3, as stated, fails: the source tree has the file `sub/a.txt` and the
destination tree has no directory `sub`; `copyFile` does not create it, so after `syncDirs` the
destination still has no file `sub/a.txt`. -/
theorem syncDirs_convergence_counterexample :
    (subdirWorld.fs.get (mkPath ["S", "sub", "a.txt"]) = some (.file (ascii "A")) ∧
      (syncDirs subdirWorld (mkPath ["S"]) (mkPath ["D"])).1 =
        .err (.io .write (mkPath ["D", "sub", "a.txt"])) ∧
      (syncDirs subdirWorld (mkPath ["S"]) (mkPath ["D"])).2.fs.get
        (mkPath ["D", "sub", "a.txt"]) = none) ∧
    ¬ (∀ (w : World) (src dst : Path), w.fs.locked = [] →
      w.fs.get src = some .dir → w.fs.get dst = some .dir → ¬ src <+: dst → ¬ dst <+: src →
      ∀ r data, (syncDirs w src dst).2.fs.get (dst ++ r) = some (.file data) ↔
        w.fs.get (src ++ r) = some (.file data)) := by
  refine ⟨by decide, ?_⟩
  intro hall
  have := hall subdirWorld (mkPath ["S"]) (mkPath ["D"]) (by decide) (by decide) (by decide)
    (by decide) (by decide) (mkPath ["sub", "a.txt"]) (ascii "A")
  revert this
  decide

/-- C3, amended: for two directory trees `src` and `dst`, neither inside the other, such that
the directory of every file of `src` exists as a directory in `dst` and no relative path is a
file in one tree and a directory in the other, `syncDirs` with nothing locked returns success,
the files below `dst` are afterwards exactly the files below `src`, with the same contents, and
`src` is unchanged. -/
theorem syncDirs_converges (w : World) (src dst : Path)
    (hlock : w.fs.locked = [])
    (hsrc : w.fs.get src = some .dir) (hdst : w.fs.get dst = some .dir)
    (h1 : ¬ src <+: dst) (h2 : ¬ dst <+: src)
    (H1 : ∀ r data, w.fs.get (src ++ r) = some (.file data) →
      w.fs.get (dst ++ r.dropLast) = some .dir)
    (H2 : ∀ r data, w.fs.get (src ++ r) = some (.file data) → w.fs.get (dst ++ r) ≠ some .dir)
    (H3 : ∀ r data, w.fs.get (dst ++ r) = some (.file data) → w.fs.get (src ++ r) ≠ some .dir) :
    (syncDirs w src dst).1 = .ok () ∧
    (∀ r data, (syncDirs w src dst).2.fs.get (dst ++ r) = some (.file data) ↔
      w.fs.get (src ++ r) = some (.file data)) ∧
    (∀ r, (syncDirs w src dst).2.fs.get (src ++ r) = w.fs.get (src ++ r)) := by
  obtain ⟨l1, hl1⟩ := walk_isSome w.fs src _ hsrc
  obtain ⟨s1, s2⟩ := walk_spec w.fs src l1 hl1
  -- the copy phase
  have hgood : ∀ p, (p, false) ∈ l1 → ∃ data, w.fs.get p = some (.file data) ∧ src <+: p ∧
      w.fs.get (dst ++ p.drop src.length) ≠ some .dir ∧
      w.fs.get (dst ++ p.drop src.length).dropLast = some .dir := by
    intro p hp
    obtain ⟨g1, g2, g3⟩ := s1 p false hp
    obtain ⟨data, hdata⟩ := get_file_of_not_dir w.fs p g2 g3
    have hpe := eq_append_drop_of_isPrefix g1
    have hdata2 : w.fs.get (src ++ p.drop src.length) = some (.file data) := by
      rw [← hpe]; exact hdata
    have hr : p.drop src.length ≠ [] := by
      intro hr
      rw [hr, List.append_nil, hsrc] at hdata2
      simp at hdata2
    refine ⟨data, hdata, g1, H2 _ data hdata2, ?_⟩
    rw [List.dropLast_append_of_ne_nil _ hr]
    exact H1 _ data hdata2
  obtain ⟨c1, c2, c3, c4⟩ := copyPhase_spec src dst h1 h2 l1 w none hlock hgood
  cases hc : copyPhase src dst l1 w none with
  | mk w1 e1 =>
    rw [hc] at c1 c2 c3 c4
    simp only at c1 c2 c3 c4
    subst c1
    have F1 : ∀ r, w1.fs.get (src ++ r) = w.fs.get (src ++ r) := by
      intro r
      rcases c3 (src ++ r) with h | ⟨p, _, hq, _⟩
      · exact h
      · exact absurd hq (ne_of_disjoint_roots _ h1 h2 (List.prefix_append src r))
    have F2 : ∀ r data, w.fs.get (src ++ r) = some (.file data) →
        w1.fs.get (dst ++ r) = some (.file data) := by
      intro r data hr
      have hmem := s2 (src ++ r) (List.prefix_append src r) (by simp [hr])
      have hdec : decide (w.fs.get (src ++ r) = some Node.dir) = false := by simp [hr]
      rw [hdec] at hmem
      have := c4 (src ++ r) hmem
      rw [List.drop_left] at this
      rw [this, hr]
    have F3 : ∀ r, (¬ ∃ data, w.fs.get (src ++ r) = some (.file data)) →
        w1.fs.get (dst ++ r) = w.fs.get (dst ++ r) := by
      intro r hr
      rcases c3 (dst ++ r) with h | ⟨p, hp, hq, _⟩
      · exact h
      · exfalso
        obtain ⟨data, g1, g2, _, _⟩ := hgood p hp
        apply hr
        refine ⟨data, ?_⟩
        rw [List.append_cancel_left hq, ← eq_append_drop_of_isPrefix g2]
        exact g1
    have hdst1 : w1.fs.get dst = some .dir := by
      have := F3 [] (by
        intro ⟨data, hd⟩
        rw [List.append_nil, hsrc] at hd
        simp at hd)
      simpa [hdst] using this
    obtain ⟨l2, hl2⟩ := walk_isSome w1.fs dst _ hdst1
    obtain ⟨t1, t2⟩ := walk_spec w1.fs dst l2 hl2
    have hfiles : ∀ p, (p, false) ∈ l2 → dst <+: p ∧
        (w1.fs.get p = none ∨ ∃ data, w1.fs.get p = some (.file data)) := by
      intro p hp
      obtain ⟨g1, g2, g3⟩ := t1 p false hp
      exact ⟨g1, Or.inr (get_file_of_not_dir w1.fs p g2 g3)⟩
    obtain ⟨d1, _, d3, d4⟩ := deletePhase_spec src dst h1 h2 l2 w1 c2 hfiles
    cases hd : deletePhase src dst l2 w1 none with
    | mk w2 e2 =>
      rw [hd] at d1 d3 d4
      simp only at d1 d3 d4
      subst d1
      simp only [syncDirs, hl1, hc, hl2, hd, true_and]
      constructor
      · intro r data
        constructor
        · intro hfin
          have hmemFile : w1.fs.get (dst ++ r) = some (.file data) ∧
              w1.fs.get (src ++ r) ≠ none := by
            by_cases hcase : (dst ++ r, false) ∈ l2 ∧
                w1.fs.get (src ++ (dst ++ r).drop dst.length) = none
            · rw [d3 _ hcase.1 hcase.2] at hfin
              simp at hfin
            · rw [d4 _ hcase] at hfin
              refine ⟨hfin, ?_⟩
              intro hnone
              apply hcase
              have hmem := t2 (dst ++ r) (List.prefix_append dst r) (by simp [hfin])
              have hdec : decide (w1.fs.get (dst ++ r) = some Node.dir) = false := by
                simp [hfin]
              rw [hdec] at hmem
              exact ⟨hmem, by rw [List.drop_left]; exact hnone⟩
          obtain ⟨m1, m2⟩ := hmemFile
          rw [F1] at m2
          cases hg : w.fs.get (src ++ r) with
          | none => exact absurd hg m2
          | some n =>
            cases n with
            | file data1 =>
              have := F2 r data1 hg
              rw [m1] at this
              simp only [Option.some.injEq, Node.file.injEq] at this
              rw [this]
            | dir =>
              exfalso
              have := F3 r (by
                intro ⟨data1, hd1⟩
                rw [hg] at hd1
                simp at hd1)
              rw [m1] at this
              exact H3 r data this.symm hg
        · intro hsrcfile
          have hf := F2 r data hsrcfile
          rw [d4, hf]
          intro ⟨_, hnone⟩
          rw [List.drop_left, F1, hsrcfile] at hnone
          simp at hnone
      · intro r
        rw [d4, F1]
        intro ⟨hmem, _⟩
        obtain ⟨g1, _, _⟩ := t1 _ false hmem
        exact ne_of_disjoint_roots ((src ++ r).drop dst.length) h1 h2
          (List.prefix_append src r) (eq_append_drop_of_isPrefix g1)

/-- Witness of C3 (amended): two flat trees, the destination holding an older `a` and a stale
file. -/
theorem syncDirs_converges_witness :
    (syncDirs flatWorld (mkPath ["S"]) (mkPath ["D"])).1 = .ok () ∧
    (∀ r data, (syncDirs flatWorld (mkPath ["S"]) (mkPath ["D"])).2.fs.get (mkPath ["D"] ++ r) =
        some (.file data) ↔ flatWorld.fs.get (mkPath ["S"] ++ r) = some (.file data)) ∧
    (∀ r, (syncDirs flatWorld (mkPath ["S"]) (mkPath ["D"])).2.fs.get (mkPath ["S"] ++ r) =
      flatWorld.fs.get (mkPath ["S"] ++ r)) :=
  syncDirs_converges flatWorld (mkPath ["S"]) (mkPath ["D"]) (by decide) (by decide) (by decide)
    (by decide) (by decide)
    (forall_files_of_entries flatWorld.fs (mkPath ["S"])
      (fun r => flatWorld.fs.get (mkPath ["D"] ++ r.dropLast) = some .dir) (by decide))
    (forall_files_of_entries flatWorld.fs (mkPath ["S"])
      (fun r => flatWorld.fs.get (mkPath ["D"] ++ r) ≠ some .dir) (by decide))
    (forall_files_of_entries flatWorld.fs (mkPath ["D"])
      (fun r => flatWorld.fs.get (mkPath ["S"] ++ r) ≠ some .dir) (by decide))

/-- With a destination file where the source has a directory, `syncDirs` reports success and
the destination keeps the file. -/
theorem syncDirs_keeps_file_over_directory :
    (syncDirs clashWorld (mkPath ["S"]) (mkPath ["D"])).1 = .ok () ∧
    (syncDirs clashWorld (mkPath ["S"]) (mkPath ["D"])).2.fs.get (mkPath ["D", "x"]) =
      some (.file (ascii "X")) ∧
    clashWorld.fs.get (mkPath ["S", "x"]) = some .dir := by
  decide

/-- C7, as stated, fails: a valid archive whose only entry is `data.bin`, with
the right published hash, makes `download` fail, because the updater copied to the working-copy
directory is read from `winupdate.exe` in the staged directory. -/
theorem download_stages_update_counterexample :
    ((toyLib dataEntries).sha256 exArchive = exHash ∧
      (download (toyLib dataEntries) freshWorld exUrl).1 =
        .err (.io .read (mkPath ["Acme", "Widget-next", "winupdate.exe"])) ∧
      (download (toyLib dataEntries) freshWorld exUrl).2.fs.get
        (mkPath ["Acme", "Widget-next", "update.ready"]) = none) ∧
    ¬ (∀ (L : Lib) (w : World) (zipUrl : Str) (b h A Z : Bytes) (files : List ZipEntry)
      (baseDir nextDir tempDir : Path),
      appDirs w.exe = .ok (baseDir, nextDir, tempDir) →
      w.fs.get (join nextDir readyName) = none →
      w.net (zipUrl ++ hashSuffix) = some b → acceptHash b = .ok h →
      hashIsCurrent w.fs baseDir h = false →
      w.net zipUrl = some A → L.sha256 A = h →
      decompress L zipUrl A = some Z → L.unzip Z = some files →
      (∀ f ∈ files, isPlainName f.name = true ∧ f.data.isSome = true) →
      w.fs.locked = [] → w.fs.get (dir nextDir) = some .dir →
      (download L w zipUrl).1 = .ok ()) := by
  refine ⟨by decide, ?_⟩
  intro hall
  have := hall (toyLib dataEntries) freshWorld exUrl exHash exHash exArchive exArchive dataEntries
    (mkPath ["Acme", "Widget"]) (mkPath ["Acme", "Widget-next"]) (mkPath ["Acme", "Widget-temp"])
    (by decide) (by decide) (by decide) (by decide) (by decide) (by decide) (by decide)
    (by decide) (by decide) (by decide) (by decide) (by decide)
  revert this
  decide

/-- C7, amended: for a valid archive of plain, readable file entries one of which is named
`winupdate.exe`, whose published hash `h` is the SHA-256 of its bytes and is not the installed
Archive Hash Marker, starting with no Ready Marker, with nothing locked and the parent of the
installation directories present, `download` returns success and leaves in the staged directory
the Ready Marker and an Archive Hash Marker whose content is the 64-character hexadecimal
encoding of `h`. -/
theorem download_stages_update (L : Lib) (w : World) (zipUrl : Str) (b h A Z : Bytes)
    (files : List ZipEntry) (baseDir nextDir tempDir : Path)
    (hdirs : appDirs w.exe = .ok (baseDir, nextDir, tempDir))
    (hready : w.fs.get (join nextDir readyName) = none)
    (hnet : w.net (zipUrl ++ hashSuffix) = some b) (hacc : acceptHash b = .ok h)
    (hcur : hashIsCurrent w.fs baseDir h = false)
    (harch : w.net zipUrl = some A) (hsha : L.sha256 A = h)
    (hzip : decompress L zipUrl A = some Z) (hunzip : L.unzip Z = some files)
    (hvalid : ∀ f ∈ files, isPlainName f.name = true ∧ f.data.isSome = true)
    (hexe : ∃ f ∈ files, f.name = exeName)
    (hlock : w.fs.locked = []) (hparent : w.fs.get (dir nextDir) = some .dir) :
    (download L w zipUrl).1 = .ok () ∧
    (download L w zipUrl).2.fs.get (join nextDir readyName) = some (.file []) ∧
    (download L w zipUrl).2.fs.get (join nextDir markerName) = some (.file (hexEncode h)) ∧
    (hexEncode h).length = 64 := by
  obtain ⟨X, c, hn, ht⟩ := appDirs_shape w.exe baseDir nextDir tempDir hdirs
  have hX : w.fs.get X = some .dir := by
    rw [hn, dir_concat] at hparent
    exact hparent
  have hlen := acceptHash_length b h hacc
  rw [download_eq_withHash L w zipUrl b h baseDir nextDir tempDir hdirs hready hnet hacc]
  obtain ⟨w5, e1, e2⟩ := downloadWithHash_eq_stage L
    ((w.log (.text "Download hash")).request (zipUrl ++ hashSuffix)) zipUrl baseDir nextDir
    tempDir h A Z (by simpa using hcur) (by simpa using harch) hlen hsha.symm hzip
  have e3 : w5.fs = w.fs := by simpa using e1
  rw [e2]
  obtain ⟨s1, s2, s3⟩ := stage_ok L w5 nextDir tempDir Z h files X c hn ht
    (by rw [e3]; exact hlock) (by rw [e3]; exact hX) hunzip hvalid hexe
  exact ⟨s1, s2, s3, by rw [hexEncode_length, hlen]⟩

/-- Witness of C7 (amended): the archive `fullEntries` published with its digest. -/
theorem download_stages_update_witness :
    (download (toyLib fullEntries) freshWorld exUrl).1 = .ok () ∧
    (download (toyLib fullEntries) freshWorld exUrl).2.fs.get
      (join (mkPath ["Acme", "Widget-next"]) readyName) = some (.file []) ∧
    (download (toyLib fullEntries) freshWorld exUrl).2.fs.get
      (join (mkPath ["Acme", "Widget-next"]) markerName) = some (.file (hexEncode exHash)) ∧
    (hexEncode exHash).length = 64 :=
  download_stages_update (toyLib fullEntries) freshWorld exUrl exHash exHash exArchive exArchive
    fullEntries (mkPath ["Acme", "Widget"]) (mkPath ["Acme", "Widget-next"])
    (mkPath ["Acme", "Widget-temp"])
    (by decide) (by decide) (by decide) (by decide) (by decide) (by decide) (by decide)
    (by decide) (by decide) (by decide) (by decide) (by decide) (by decide)

/-- C8, as stated, fails: an archive with an entry named `update.ready` and no
`winupdate.exe` makes `download` return an error (the copy of the updater fails) after the
entry has been extracted, so the staged directory holds a Ready Marker. -/
theorem download_error_ready_counterexample :
    (freshWorld.fs.get (mkPath ["Acme", "Widget-next", "update.ready"]) = none ∧
      (download (toyLib readyEntries) freshWorld exUrl).1 =
        .err (.io .read (mkPath ["Acme", "Widget-next", "winupdate.exe"])) ∧
      (download (toyLib readyEntries) freshWorld exUrl).2.fs.get
        (mkPath ["Acme", "Widget-next", "update.ready"]) = some (.file [])) ∧
    ¬ (∀ (L : Lib) (w : World) (zipUrl : Str) (e : Error) (baseDir nextDir tempDir : Path),
      appDirs w.exe = .ok (baseDir, nextDir, tempDir) →
      w.fs.get (join nextDir readyName) = none →
      (download L w zipUrl).1 = .err e →
      (download L w zipUrl).2.fs.get (join nextDir readyName) = none) := by
  refine ⟨by decide, ?_⟩
  intro hall
  have := hall (toyLib readyEntries) freshWorld exUrl
    (.io .read (mkPath ["Acme", "Widget-next", "winupdate.exe"]))
    (mkPath ["Acme", "Widget"]) (mkPath ["Acme", "Widget-next"]) (mkPath ["Acme", "Widget-temp"])
    (by decide) (by decide) (by decide)
  revert this
  decide

/-- C8, amended: for every run of `download` that starts with no Ready Marker in the staged
directory and returns an error (the no-update-available result included), where no entry of the
downloaded archive is extracted to the path of the Ready Marker, the staged directory holds no
Ready Marker when `download` returns. -/
theorem download_error_no_ready (L : Lib) (w : World) (zipUrl : Str) (e : Error)
    (baseDir nextDir tempDir : Path)
    (hdirs : appDirs w.exe = .ok (baseDir, nextDir, tempDir))
    (hready : w.fs.get (join nextDir readyName) = none)
    (hnames : ∀ A Z files, w.net zipUrl = some A → decompress L zipUrl A = some Z →
      L.unzip Z = some files → ∀ f ∈ files, join nextDir f.name ≠ join nextDir readyName)
    (herr : (download L w zipUrl).1 = .err e) :
    (download L w zipUrl).2.fs.get (join nextDir readyName) = none := by
  obtain ⟨X, c, hn, ht⟩ := appDirs_shape w.exe baseDir nextDir tempDir hdirs
  have hr : isReadyForUpdate w = some false := by
    simp [isReadyForUpdate, hdirs, hready]
  simp only [download, hr, hdirs, log_net, request_net] at herr ⊢
  cases h1 : w.net (zipUrl ++ hashSuffix) with
  | none => simpa using hready
  | some b =>
    rw [h1] at herr
    simp only at herr ⊢
    cases h2 : acceptHash b with
    | error e2 => simpa using hready
    | ok h =>
      rw [h2] at herr
      simp only at herr ⊢
      rcases downloadWithHash_cases L
        ((w.log (.text "Download hash")).request (zipUrl ++ hashSuffix)) zipUrl baseDir nextDir
        tempDir h with ⟨_, hfs⟩ | ⟨A, Z, w5, h3, h4, e1, e2⟩
      · rw [hfs]
        simpa using hready
      · rw [e2] at herr ⊢
        have e3 : w5.fs = w.fs := by simpa using e1
        exact stage_err_no_ready L w5 nextDir tempDir Z h e X c hn ht (by rw [e3]; exact hready)
          (fun files hu => hnames A Z files (by simpa using h3) h4 hu) herr

/-- Witness of C8 (amended): with the archive `dataEntries` the copy of the updater fails and
no Ready Marker is left. -/
theorem download_error_no_ready_witness :
    (download (toyLib dataEntries) freshWorld exUrl).2.fs.get
      (join (mkPath ["Acme", "Widget-next"]) readyName) = none :=
  download_error_no_ready (toyLib dataEntries) freshWorld exUrl
    (.io .read (mkPath ["Acme", "Widget-next", "winupdate.exe"]))
    (mkPath ["Acme", "Widget"]) (mkPath ["Acme", "Widget-next"]) (mkPath ["Acme", "Widget-temp"])
    (by decide) (by decide)
    (fun _ _ files _ _ hu => by
      have hf : files = dataEntries := by simpa [toyLib] using hu.symm
      subst hf
      decide)
    (by decide)
end Winupdate
